import Mathlib

/-!
# fliconv: character-set translation for the driver

A shallow embedding of `src/fliconv.cc` (the `USE_ICONV` build) and the
properties of its translator registry, its conversion loop, its width counter
and its efuns.

Conventions of the embedding

* A byte is a `Fin 256`.  A `const char *` argument is the list of bytes that
  can be read from the pointer on; `strlen`, `strcmp`, `strcpy` and `strcat`
  work on such lists and stop at the first zero byte (the end of the list
  counts as a zero byte).
* `size_t` and `int` quantities are natural numbers: lengths and capacities
  are taken without a machine bound.
* The iconv library is a parameter (`Env`): `iconv_open` and `iconv` are
  functions of the library's own state `W`, which is threaded through every
  call.  `iconv` sets `errno` only when it fails.
* The linked list hanging off `head` is the list of its nodes, first node
  first.
* The function statics `res` and `reslen` of `translate`, the global `head`
  and `errno` are the fields of `Globals`.  Two more fields are bookkeeping
  of the embedding only: `opened` records every `iconv_open` call and
  `iconv_calls` counts the `iconv` calls.
* `while` loops that need not end take a fuel argument, one unit per
  iteration; `none` means the fuel did not suffice.
-/

namespace Fliconv

/-- One `char` of memory, as its unsigned value. -/
abbrev Byte := Fin 256

/-- The handle type of iconv.h: `0` is the null handle and `-1` is the value
`(iconv_t)-1` that `iconv_open` returns on failure. -/
abbrev iconv_t := Int

/-- The errno value E2BIG of errno.h. -/
def E2BIG : Nat := 7

/-- The errno value EINVAL of errno.h. -/
def EINVAL : Nat := 22

/-- The errno value EILSEQ of errno.h. -/
def EILSEQ : Nat := 84

/-! ## string.h -/

/-- Number of bytes before the first zero byte. -/
def strlen : List Byte → Nat
  | [] => 0
  | b :: rest => if b = 0 then 0 else strlen rest + 1

/-- The C string a pointer denotes: the bytes before the first zero byte. -/
def cstr (m : List Byte) : List Byte := m.take (strlen m)

/-- Comparison of two C strings, zero exactly when they are equal. -/
def strcmp : List Byte → List Byte → Int
  | [], [] => 0
  | [], b :: _ => -(b.val : Int)
  | a :: _, [] => (a.val : Int)
  | a :: as, b :: bs =>
    if a ≠ b then (a.val : Int) - (b.val : Int)
    else if a = 0 then 0
    else strcmp as bs

/-- The string that `strcpy(dst, src)` leaves in `dst`. -/
def strcpy (src : List Byte) : List Byte := cstr src

/-- The string that `strcat(dst, src)` leaves in `dst`. -/
def strcat (dst src : List Byte) : List Byte := cstr dst ++ cstr src

/-- The literal "//TRANSLIT//IGNORE" (18 bytes). -/
def TRANSLIT_IGNORE : List Byte :=
  [47, 47, 84, 82, 65, 78, 83, 76, 73, 84, 47, 47, 73, 71, 78, 79, 82, 69]

/-! ## The environment: build configuration, iconv, allocator -/

/-- Build-time configuration: the value of the macro `USE_ICONV` (the name of
the internal encoding) and whether `__linux__` and `PACKAGE_DWLIB` are
defined. -/
structure Config where
  USE_ICONV : List Byte
  linux : Bool
  PACKAGE_DWLIB : Bool

/-- What one `iconv_open` call does: the handle returned, the value stored in
`errno` if any, and the library state afterwards. -/
structure OpenOut (W : Type) where
  cd : iconv_t
  err : Option Nat
  world : W

/-- What one `iconv` call does: how many input bytes it consumed, the bytes it
wrote to the output, the value it stored in `errno` when it failed (`none`
when it succeeded), and the library state afterwards. -/
structure IconvOut (W : Type) where
  consumed : Nat
  produced : List Byte
  err : Option Nat
  world : W

/-- The collaborators of the file.  `iconv_open w tocode fromcode` and
`iconv w cd input outbytesleft` are the two library calls; `iconv` never
consumes more than it is given nor writes more than `outbytesleft`.
`DMALLOC n` is the content of a freshly allocated block of `n` bytes. -/
structure Env (W : Type) where
  iconv_open : W → List Byte → List Byte → OpenOut W
  iconv : W → iconv_t → List Byte → Nat → IconvOut W
  DMALLOC : Nat → List Byte
  consumed_le : ∀ w cd inp avail, (iconv w cd inp avail).consumed ≤ inp.length
  produced_le : ∀ w cd inp avail, (iconv w cd inp avail).produced.length ≤ avail
  DMALLOC_length : ∀ n, (DMALLOC n).length = n

/-- A node of the registry, `struct translation` without its `next` link. -/
structure translation where
  name : List Byte
  incoming : iconv_t
  outgoing : iconv_t
deriving DecidableEq, Repr

/-- The mutable state of the file. -/
structure Globals (W : Type) where
  head : List translation
  res : Option (List Byte)
  reslen : Nat
  errno : Nat
  world : W
  opened : List (List Byte × List Byte)
  iconv_calls : Nat

/-! ## The registry -/

/-- The search loop of `find_translator`. -/
def find_translator (head : List translation) (encoding : List Byte) : Option translation :=
  match head with
  | [] => none
  | cur :: next =>
    if strcmp cur.name encoding = 0 then some cur else find_translator next encoding

/-- The tail of `get_translator`: `ret` becomes `head` when the list is empty
and otherwise the `next` of the last node. -/
def link_last : List translation → translation → List translation
  | [], ret => [ret]
  | cur :: next, ret => cur :: link_last next ret

/-- The function `get_translator`: the pointer returned (`none` for null) and
the state afterwards. -/
def get_translator {W : Type} (E : Env W) (cfg : Config) (encoding : List Byte)
    (g : Globals W) : Option translation × Globals W :=
  match find_translator g.head encoding with
  | some ret => (some ret, g)
  | none =>
    let name := strcpy encoding
    let name := if cfg.linux then strcat name TRANSLIT_IGNORE else name
    let o1 := E.iconv_open g.world cfg.USE_ICONV (cstr encoding)
    let o2 := E.iconv_open o1.world name cfg.USE_ICONV
    let g1 : Globals W :=
      { g with
        world := o2.world
        errno := o2.err.getD (o1.err.getD g.errno)
        opened := g.opened ++ [(cfg.USE_ICONV, cstr encoding), (name, cfg.USE_ICONV)] }
    if o1.cd = -1 ∨ o2.cd = -1 then (none, g1)
    else
      let ret : translation :=
        { name := name.take (strlen encoding), incoming := o1.cd, outgoing := o2.cd }
      (some ret, { g1 with head := link_last g1.head ret })

/-- The content of the block `name` of `get_translator` when the second
`iconv_open` is called: the requested name, followed on Linux by the literal
"//TRANSLIT//IGNORE". -/
def outgoing_name (cfg : Config) (encoding : List Byte) : List Byte :=
  if cfg.linux then strcat (strcpy encoding) TRANSLIT_IGNORE else strcpy encoding

/-- The registry invariant: the stored names are pairwise different C strings
and both handles of every node differ from `(iconv_t)-1`. -/
def RegistryOk (head : List translation) : Prop :=
  (head.map (fun t => t.name)).Nodup ∧
    ∀ t ∈ head, cstr t.name = t.name ∧ t.incoming ≠ -1 ∧ t.outgoing ≠ -1

/-! ## The conversion loop -/

/-- Which block a returned `char *` points to: the caller's `mes` or the
static buffer `res`. -/
inductive char_ptr where
  | mes
  | res
deriving DecidableEq, Repr

/-- The outcome of one `translate` call: the pointer returned, the value
stored in `*outlen`, whether the store `tmp2[0] = 0` fell outside the block
`res`, and the state afterwards. -/
structure TranslateResult (W : Type) where
  ret : char_ptr
  outlen : Nat
  overrun : Bool
  g : Globals W

/-- The bytes at the pointer a `translate` call returned. -/
def TranslateResult.deref {W : Type} (r : TranslateResult W) (mes : List Byte) : List Byte :=
  match r.ret with
  | .mes => mes
  | .res => r.g.res.getD []

/-- The locals of `translate` that change in the loop; `tmp` and `tmp2` are
kept as offsets from `mes` and from `res`. -/
structure Locals where
  len : Nat
  tmp : Nat
  tmp2 : Nat
  len2 : Nat
deriving DecidableEq, Repr

/-- The block `buf` after `bytes` have been written at offset `off`. -/
def store (buf : List Byte) (off : Nat) (bytes : List Byte) : List Byte :=
  buf.take off ++ bytes ++ buf.drop (off + bytes.length)

/-- The `while (len)` loop of `translate`. -/
def translate_loop {W : Type} (E : Env W) (cfg : Config) (tr : iconv_t) (mes : List Byte) :
    Nat → Locals → Globals W → Option (TranslateResult W)
  | 0, _, _ => none
  | fuel + 1, l, g =>
    if l.len = 0 then
      some { ret := .res, outlen := g.reslen - l.len2, overrun := false, g := g }
    else
      let r := E.iconv g.world tr ((mes.drop l.tmp).take l.len) l.len2
      let l1 : Locals :=
        { len := l.len - r.consumed
          tmp := l.tmp + r.consumed
          tmp2 := l.tmp2 + r.produced.length
          len2 := l.len2 - r.produced.length }
      let g1 : Globals W :=
        { g with
          res := some (store (g.res.getD []) l.tmp2 r.produced)
          errno := r.err.getD g.errno
          world := r.world
          iconv_calls := g.iconv_calls + 1 }
      if cfg.PACKAGE_DWLIB = true ∧ 1 < l1.len ∧ mes.getD l1.tmp 0 = 0xff
          ∧ mes.getD (l1.tmp + 1) 0 = 0xf9 then
        translate_loop E cfg tr mes fuel { l1 with len := l1.len - 2, tmp := l1.tmp + 2 } g1
      else if g1.errno = E2BIG then
        let reslen := g1.reslen * 2
        translate_loop E cfg tr mes fuel
          { len := strlen mes + 1, tmp := 0, tmp2 := 0, len2 := reslen }
          { g1 with errno := 0, res := some (E.DMALLOC reslen), reslen := reslen }
      else
        some
          { ret := .res
            outlen := g1.reslen - l1.len2
            overrun := decide ((g1.res.getD []).length ≤ l1.tmp2)
            g := { g1 with res := some ((g1.res.getD []).set l1.tmp2 0) } }

/-- The function `translate`, with `*outlen` part of the result. -/
def translate {W : Type} (E : Env W) (cfg : Config) (fuel : Nat) (tr : iconv_t)
    (mes : List Byte) (inlen : Nat) (g : Globals W) : Option (TranslateResult W) :=
  if tr = 0 then
    some { ret := .mes, outlen := inlen, overrun := false, g := g }
  else
    let g0 : Globals W :=
      if g.res.isNone then { g with res := some (E.DMALLOC 1), reslen := 1 } else g
    translate_loop E cfg tr mes fuel
      { len := inlen, tmp := 0, tmp2 := 0, len2 := g0.reslen } g0

/-- The function `translate_easy`: the pointer returned and the state
afterwards. -/
def translate_easy {W : Type} (E : Env W) (cfg : Config) (fuel : Nat) (tr : iconv_t)
    (mes : List Byte) (g : Globals W) : Option (char_ptr × Globals W) :=
  if tr = 0 then some (.mes, g)
  else
    match translate E cfg fuel tr mes (strlen mes + 1) g with
    | none => none
    | some r => some (r.ret, r.g)

/-! ## The width counter -/

/-- The values on the evaluation stack of the virtual machine. -/
inductive svalue where
  | number (n : Int)
  | string (s : List Byte)
  | array (items : List Int)
  | object (ob : Nat)
deriving DecidableEq, Repr

/-- The stack without its top value; the top of the stack `sp` is the first
element of the list. -/
def pop_stack (sp : List svalue) : List svalue := sp.tail

/-- The stack with the number `n` pushed. -/
def push_number (n : Int) (sp : List svalue) : List svalue := .number n :: sp

/-- The value of a `char` holding the byte `b` once promoted to `int`:
`b - 256` for the bytes from 128 on when `char` is signed. -/
def char_to_int (char_signed : Bool) (b : Byte) : Int :=
  if char_signed = true ∧ 128 ≤ b.val then (b.val : Int) - 256 else (b.val : Int)

/-- The operator `&` on two 32-bit `int`s in two's complement. -/
def int_and (a b : Int) : Int :=
  let r : Nat := Nat.land (a % 2 ^ 32).toNat (b % 2 ^ 32).toNat
  if r < 2 ^ 31 then (r : Int) else (r : Int) - 2 ^ 32

/-- One iteration of the loop of `f_strwidth`:
`width += !((string[i] & 0xc0) == 0x80)`. -/
def strwidth_step (char_signed : Bool) (string : List Byte) (width : Int) (i : Nat) : Int :=
  width + (if int_and (char_to_int char_signed (string.getD i 0)) 0xc0 = 0x80 then 0 else 1)

/-- The efun `f_strwidth` on the stack `sp`, whose top is the string argument
(`none` when it is not a string, which the virtual machine excludes).
`SVALUE_STRLEN(sp)` is the length of that string. -/
def f_strwidth (char_signed : Bool) : List svalue → Option (List svalue)
  | .string s :: sp =>
    let len := s.length
    let width := (List.range len).foldl (strwidth_step char_signed s) 0
    some (push_number width (pop_stack (.string s :: sp)))
  | _ => none

/-! ## Sequences of calls -/

/-- One call into the file from the rest of the driver, or a store to `errno`
by code outside the file. -/
inductive Call where
  | get_translator (encoding : List Byte)
  | translate (fuel : Nat) (tr : iconv_t) (mes : List Byte) (inlen : Nat)
  | translate_easy (fuel : Nat) (tr : iconv_t) (mes : List Byte)
  | set_errno (e : Nat)

/-- The state after one call, `none` when the call does not return within
its fuel. -/
def Call.exec {W : Type} (E : Env W) (cfg : Config) : Call → Globals W → Option (Globals W)
  | .get_translator encoding, g => some (Fliconv.get_translator E cfg encoding g).2
  | .translate fuel tr mes inlen, g => (Fliconv.translate E cfg fuel tr mes inlen g).map (fun r => r.g)
  | .translate_easy fuel tr mes, g => (Fliconv.translate_easy E cfg fuel tr mes g).map (fun r => r.2)
  | .set_errno e, g => some { g with errno := e }

/-- The state after a sequence of calls. -/
def run {W : Type} (E : Env W) (cfg : Config) : List Call → Globals W → Option (Globals W)
  | [], g => some g
  | c :: cs, g =>
    match c.exec E cfg g with
    | none => none
    | some g1 => run E cfg cs g1

/-! ## A sample environment

A small stateless codec, used to evaluate the code on concrete inputs.  It
reads little-endian 32-bit units and writes each unit below 128 as one byte,
the way a UTF-32LE to ASCII conversion does. -/

/-- The sample conversion: consumed input bytes, produced bytes and error. -/
def sample_conv : List Byte → Nat → Nat × List Byte × Option Nat
  | b0 :: b1 :: b2 :: b3 :: rest, avail =>
    if 128 ≤ b0.val ∨ b1 ≠ 0 ∨ b2 ≠ 0 ∨ b3 ≠ 0 then (0, [], some EILSEQ)
    else
      match avail with
      | 0 => (0, [], some E2BIG)
      | avail + 1 =>
        let r := sample_conv rest avail
        (r.1 + 4, b0 :: r.2.1, r.2.2)
  | [], _ => (0, [], none)
  | _ :: _, _ => (0, [], some EINVAL)

/-- The name "UTF-8". -/
def UTF8 : List Byte := [85, 84, 70, 45, 56]

/-- The name "UTF-32". -/
def UTF32 : List Byte := [85, 84, 70, 45, 51, 50]

/-- The sample `iconv_open`: handle 1 for UTF-32 to UTF-8, handle 2 for UTF-8
to "UTF-32//TRANSLIT//IGNORE", and failure with EINVAL for any other pair. -/
def sample_open (tocode fromcode : List Byte) : OpenOut Unit :=
  if tocode = UTF8 ∧ fromcode = UTF32 then { cd := 1, err := none, world := () }
  else if tocode = UTF32 ++ TRANSLIT_IGNORE ∧ fromcode = UTF8 then
    { cd := 2, err := none, world := () }
  else { cd := -1, err := some EINVAL, world := () }

/-- The sample environment: `iconv_open` is `sample_open`, every handle
converts with `sample_conv`, and fresh blocks are filled with the byte
0xaa. -/
def sampleEnv : Env Unit where
  iconv_open := fun _ tocode fromcode => sample_open tocode fromcode
  iconv := fun w _ inp avail =>
    { consumed := (sample_conv inp avail).1
      produced := (sample_conv inp avail).2.1
      err := (sample_conv inp avail).2.2
      world := w }
  DMALLOC := fun n => List.replicate n 0xaa
  consumed_le := by
    intro _ _ inp avail
    show (sample_conv inp avail).1 ≤ inp.length
    induction inp, avail using sample_conv.induct <;> simp_all [sample_conv] <;>
      split <;> simp_all
  produced_le := by
    intro _ _ inp avail
    show (sample_conv inp avail).2.1.length ≤ avail
    induction inp, avail using sample_conv.induct <;> simp_all [sample_conv] <;>
      split <;> simp_all
  DMALLOC_length := by simp

/-- A sample build: internal encoding "UTF-8", Linux, no marker recovery. -/
def sampleConfig : Config :=
  { USE_ICONV := UTF8, linux := true, PACKAGE_DWLIB := false }

/-- The state of a process that has not called into the file yet. -/
def initialGlobals : Globals Unit :=
  { head := [], res := none, reslen := 0, errno := 0, world := (), opened := [],
    iconv_calls := 0 }

/-- The buffer `f_arr_to_str` builds for the array `({ 65, 66 })`: the two
units and the closing zero unit, 12 bytes. -/
def sampleUnits : List Byte := [0x41, 0, 0, 0, 0x42, 0, 0, 0, 0, 0, 0, 0]

/-- The text "hello" with its terminator, 6 bytes. -/
def sampleHello : List Byte := [104, 101, 108, 108, 111, 0]

/-- The name "L1", which the sample `iconv_open` does not know. -/
def sampleUnknown : List Byte := [76, 49]

/-- The node the sample environment creates for "UTF-32". -/
def sampleUTF32 : translation := { name := UTF32, incoming := 1, outgoing := 2 }

/-- The state after `get_translator("UTF-32")` on the initial state. -/
def sampleRegistered : Globals Unit :=
  { initialGlobals with
    head := [sampleUTF32]
    opened := [(UTF8, UTF32), (UTF32 ++ TRANSLIT_IGNORE, UTF8)] }

/-- Three later calls: a lookup that fails, a conversion, a repeated lookup. -/
def sampleCalls : List Call :=
  [.get_translator sampleUnknown, .translate 4 1 sampleUnits 12, .get_translator UTF32]

/-- The state after `sampleCalls` on `sampleRegistered`. -/
def sampleLater : Globals Unit :=
  { head := [sampleUTF32]
    res := some [0, 0xaa]
    reslen := 2
    errno := EINVAL
    world := ()
    opened := [(UTF8, UTF32), (UTF32 ++ TRANSLIT_IGNORE, UTF8), (UTF8, sampleUnknown),
      (sampleUnknown ++ TRANSLIT_IGNORE, UTF8)]
    iconv_calls := 2 }

/-- A state in which the shared buffer already has 16 bytes. -/
def sampleRoomy : Globals Unit :=
  { initialGlobals with res := some (List.replicate 16 0xaa), reslen := 16 }

/-- The state after `translate(1, sampleUnits, 12)` on `sampleRoomy`: the
buffer holds "AB", the converted zero unit and the terminator. -/
def sampleWarm : Globals Unit :=
  { initialGlobals with
    res := some ([0x41, 0x42, 0, 0] ++ List.replicate 12 0xaa)
    reslen := 16
    iconv_calls := 1 }

/-- The text "AB", without its terminator. -/
def sampleText : List Byte := [0x41, 0x42]

/-! ## One iteration of the conversion loop -/

/-- The `iconv` call of the iteration that starts with the locals `l` in the
state `g`. -/
def iconv_pass {W : Type} (E : Env W) (tr : iconv_t) (mes : List Byte) (l : Locals)
    (g : Globals W) : IconvOut W :=
  E.iconv g.world tr ((mes.drop l.tmp).take l.len) l.len2

/-- The condition of the `PACKAGE_DWLIB` branch once the call has consumed
`consumed` bytes: more than one byte is left and the next two are 0xff 0xf9. -/
def marker_next (cfg : Config) (mes : List Byte) (l : Locals) (consumed : Nat) : Prop :=
  cfg.PACKAGE_DWLIB = true ∧ 1 < l.len - consumed ∧ mes.getD (l.tmp + consumed) 0 = 0xff
    ∧ mes.getD (l.tmp + consumed + 1) 0 = 0xf9

instance (cfg : Config) (mes : List Byte) (l : Locals) (consumed : Nat) :
    Decidable (marker_next cfg mes l consumed) := by
  unfold marker_next
  infer_instance

/-- The state right after the `iconv` call of an iteration: the produced bytes
are in the buffer, `errno` holds the error if there was one. -/
def after_pass {W : Type} (E : Env W) (tr : iconv_t) (mes : List Byte) (l : Locals)
    (g : Globals W) : Globals W :=
  { g with
    res := some (store (g.res.getD []) l.tmp2 (iconv_pass E tr mes l g).produced)
    errno := (iconv_pass E tr mes l g).err.getD g.errno
    world := (iconv_pass E tr mes l g).world
    iconv_calls := g.iconv_calls + 1 }

/-- How one iteration of the loop ends: with a `return`, or at the loop test
with new locals and a new state. -/
inductive Step (W : Type) where
  | done (r : TranslateResult W)
  | again (l : Locals) (g : Globals W)

/-- One iteration of the `while (len)` loop of `translate`, the loop test
included. -/
def translate_step {W : Type} (E : Env W) (cfg : Config) (tr : iconv_t) (mes : List Byte)
    (l : Locals) (g : Globals W) : Step W :=
  if l.len = 0 then
    .done { ret := .res, outlen := g.reslen - l.len2, overrun := false, g := g }
  else
    let r := iconv_pass E tr mes l g
    let g1 := after_pass E tr mes l g
    if marker_next cfg mes l r.consumed then
      .again
        { len := l.len - r.consumed - 2
          tmp := l.tmp + r.consumed + 2
          tmp2 := l.tmp2 + r.produced.length
          len2 := l.len2 - r.produced.length } g1
    else if g1.errno = E2BIG then
      .again { len := strlen mes + 1, tmp := 0, tmp2 := 0, len2 := g1.reslen * 2 }
        { g1 with errno := 0, res := some (E.DMALLOC (g1.reslen * 2)), reslen := g1.reslen * 2 }
    else
      .done
        { ret := .res
          outlen := g1.reslen - (l.len2 - r.produced.length)
          overrun := decide ((g1.res.getD []).length ≤ l.tmp2 + r.produced.length)
          g := { g1 with res := some ((g1.res.getD []).set (l.tmp2 + r.produced.length) 0) } }

/-- The capacity the loop of `translate` starts with: 1 when the buffer is
allocated by this call, `reslen` otherwise. -/
def start_capacity {W : Type} (g : Globals W) : Nat :=
  if g.res.isNone then 1 else g.reslen

/-- The state in which `translate` enters its loop: the buffer is allocated
with one byte if it was not allocated before. -/
def translate_entry {W : Type} (E : Env W) (g : Globals W) : Globals W :=
  if g.res.isNone then { g with res := some (E.DMALLOC 1), reslen := 1 } else g

/-- The locals with which `translate` enters its loop. -/
def entry_locals {W : Type} (inlen : Nat) (g0 : Globals W) : Locals :=
  { len := inlen, tmp := 0, tmp2 := 0, len2 := g0.reslen }

/-- The locals and the state at the loop test after `n` iterations that did
not return, `none` when one of them returned. -/
def loop_state {W : Type} (E : Env W) (cfg : Config) (tr : iconv_t) (mes : List Byte) :
    Nat → Locals → Globals W → Option (Locals × Globals W)
  | 0, l, g => some (l, g)
  | n + 1, l, g =>
    match translate_step E cfg tr mes l g with
    | .done _ => none
    | .again l1 g1 => loop_state E cfg tr mes n l1 g1

/-! ## Two more sample environments -/

/-- A single-byte codec in the manner of a conversion between two 8-bit code
pages: every byte is copied, except 0x81, which is reported as an invalid
sequence; when the output is full the call reports E2BIG. -/
def latin_conv : List Byte → Nat → Nat × List Byte × Option Nat
  | [], _ => (0, [], none)
  | b :: rest, avail =>
    if b = 0x81 then (0, [], some EILSEQ)
    else
      match avail with
      | 0 => (0, [], some E2BIG)
      | avail + 1 =>
        let r := latin_conv rest avail
        (r.1 + 1, b :: r.2.1, r.2.2)

/-- The environment whose handles all convert with `latin_conv`. -/
def latinEnv : Env Unit where
  iconv_open := fun _ tocode fromcode => sample_open tocode fromcode
  iconv := fun w _ inp avail =>
    { consumed := (latin_conv inp avail).1
      produced := (latin_conv inp avail).2.1
      err := (latin_conv inp avail).2.2
      world := w }
  DMALLOC := fun n => List.replicate n 0xaa
  consumed_le := by
    intro _ _ inp avail
    show (latin_conv inp avail).1 ≤ inp.length
    induction inp, avail using latin_conv.induct <;> simp_all [latin_conv]
  produced_le := by
    intro _ _ inp avail
    show (latin_conv inp avail).2.1.length ≤ avail
    induction inp, avail using latin_conv.induct <;> simp_all [latin_conv]
  DMALLOC_length := by simp

/-- The inverse of `sample_conv`: every byte below 128 becomes one
little-endian 32-bit unit. -/
def sample_widen : List Byte → Nat → Nat × List Byte × Option Nat
  | [], _ => (0, [], none)
  | b :: rest, avail =>
    if 128 ≤ b.val then (0, [], some EILSEQ)
    else if avail < 4 then (0, [], some E2BIG)
    else
      let r := sample_widen rest (avail - 4)
      (r.1 + 1, b :: 0 :: 0 :: 0 :: r.2.1, r.2.2)

/-- The environment of a translator for the 32-bit encoding: the handle 2
(outgoing) converts with `sample_widen`, every other handle (incoming) with
`sample_conv`. -/
def duplexEnv : Env Unit where
  iconv_open := fun _ tocode fromcode => sample_open tocode fromcode
  iconv := fun w cd inp avail =>
    { consumed := (if cd = 2 then sample_widen inp avail else sample_conv inp avail).1
      produced := (if cd = 2 then sample_widen inp avail else sample_conv inp avail).2.1
      err := (if cd = 2 then sample_widen inp avail else sample_conv inp avail).2.2
      world := w }
  DMALLOC := fun n => List.replicate n 0xaa
  consumed_le := by
    intro w cd inp avail
    have h1 : (sample_widen inp avail).1 ≤ inp.length := by
      induction inp generalizing avail with
      | nil => simp [sample_widen]
      | cons b rest ih =>
        have h3 := ih (avail - 4)
        unfold sample_widen
        split_ifs
        · simp
        · simp
        · simp only [List.length_cons]
          omega
    have h2 : (sample_conv inp avail).1 ≤ inp.length := sampleEnv.consumed_le w cd inp avail
    show (if cd = 2 then sample_widen inp avail else sample_conv inp avail).1 ≤ inp.length
    split <;> assumption
  produced_le := by
    intro w cd inp avail
    have h1 : (sample_widen inp avail).2.1.length ≤ avail := by
      induction inp generalizing avail with
      | nil => simp [sample_widen]
      | cons b rest ih =>
        have h3 := ih (avail - 4)
        unfold sample_widen
        split_ifs
        · simp
        · simp
        · simp only [List.length_cons]
          omega
    have h2 : (sample_conv inp avail).2.1.length ≤ avail := sampleEnv.produced_le w cd inp avail
    show (if cd = 2 then sample_widen inp avail else sample_conv inp avail).2.1.length ≤ avail
    split <;> assumption
  DMALLOC_length := by simp

/-- The sample build with marker recovery. -/
def dwlibConfig : Config := { sampleConfig with PACKAGE_DWLIB := true }

/-- The composition `translate(outgoing, translate(incoming, mes, inlen))` for
the translator `t`: the second call converts the bytes and the length the
first call returned.  The bytes are handed over as a copy, so the second call
does not read from the buffer it is writing to. -/
def roundtrip {W : Type} (E : Env W) (cfg : Config) (fuel : Nat) (t : translation)
    (mes : List Byte) (inlen : Nat) (g : Globals W) : Option (TranslateResult W) :=
  match translate E cfg fuel t.incoming mes inlen g with
  | none => none
  | some r => translate E cfg fuel t.outgoing (r.deref mes) r.outlen r.g

/-- The bytes `translate_easy` hands to the codec for the text at `mes`: the
text and its terminator. -/
def easy_input (mes : List Byte) : List Byte := mes.take (strlen mes + 1)

/-! ## The efuns on the evaluation stack -/

/-- The memory at `sp->u.string` for the string value `s`: the bytes of the
string and the terminator. -/
def string_ptr (s : List Byte) : List Byte := s ++ [0]

/-- The bytes at a pointer that `translate_easy` returned for the input `mes`,
in the state `g` it left. -/
def char_ptr.bytes {W : Type} (p : char_ptr) (mes : List Byte) (g : Globals W) : List Byte :=
  match p with
  | .mes => mes
  | .res => g.res.getD []

/-- Modelled from the spec: `copy_and_push_string` of the virtual machine,
which is declared outside this file.  The stack after
`copy_and_push_string(p)`: a new string value holding a copy of the C string
at `p`. -/
def copy_and_push_string (p : List Byte) (sp : List svalue) : List svalue :=
  .string (cstr p) :: sp

/-- The message of the error raised for an encoding that cannot be opened. -/
def unknown_encoding : String := "unknown encoding"

/-- Modelled from the spec: `error` of the virtual machine, which is declared
outside this file and raises a recoverable scripting-level error instead of
returning.  How a call of an efun ends: it returns with a stack and a state,
it raises an error through `error(msg)`, its conversion loop runs out of fuel,
or the stack does not hold the argument types the virtual machine
guarantees. -/
inductive EfunResult (W : Type) where
  | returned (sp : List svalue) (g : Globals W)
  | raised (msg : String) (sp : List svalue) (g : Globals W)
  | out_of_fuel
  | ill_typed

/-- The common body of `f_to_default_encoding` and `f_default_encoding_to`,
which differ only in the handle they take from the translator: `handle` is
`newt->incoming` or `newt->outgoing`.  The top of the stack is the encoding
name and the value below it the text.  The pointer `translated` is never null,
so the branch `push_number(0)` is not taken. -/
def default_encoding_body {W : Type} (E : Env W) (cfg : Config) (fuel : Nat)
    (handle : translation → iconv_t) (sp : List svalue) (g : Globals W) : EfunResult W :=
  match sp with
  | .string encoding :: sp1 =>
    match get_translator E cfg (string_ptr encoding) g with
    | (none, g1) => .raised unknown_encoding sp1 g1
    | (some newt, g1) =>
      match sp1 with
      | .string text :: sp2 =>
        match translate_easy E cfg fuel (handle newt) (string_ptr text) g1 with
        | none => .out_of_fuel
        | some (translated, g2) =>
          .returned (copy_and_push_string (translated.bytes (string_ptr text) g2) sp2) g2
      | _ => .ill_typed
  | _ => .ill_typed

/-- The efun `f_to_default_encoding`. -/
def f_to_default_encoding {W : Type} (E : Env W) (cfg : Config) (fuel : Nat)
    (sp : List svalue) (g : Globals W) : EfunResult W :=
  default_encoding_body E cfg fuel (fun newt => newt.incoming) sp g

/-- The efun `f_default_encoding_to`. -/
def f_default_encoding_to {W : Type} (E : Env W) (cfg : Config) (fuel : Nat)
    (sp : List svalue) (g : Globals W) : EfunResult W :=
  default_encoding_body E cfg fuel (fun newt => newt.outgoing) sp g

/-- Modelled from the spec: `interactive_t` of interactive.h, which is not in
this file.  The part the file uses: the translator of the connection, `none`
for a null pointer. -/
structure interactive_t where
  trans : Option translation
deriving DecidableEq, Repr

/-- Modelled from the spec: `object_t` of the virtual machine, which is
declared outside this file.  The part the file uses: `ob->interactive`, `none`
for a null pointer. -/
structure object_t where
  interactive : Option interactive_t
deriving DecidableEq, Repr

/-- Modelled from the spec: the objects of the virtual machine, which are
declared outside this file, by object number, and the number of
`current_object`. -/
structure Objects where
  table : Nat → object_t
  current_object : Nat

/-- The efun `f_set_encoding`, called with `st_num_arg` arguments: the name
is on the stack and, when there are two arguments, the object above it.
`none` stands for a stack without the argument types the virtual machine
guarantees. -/
def f_set_encoding {W : Type} (E : Env W) (cfg : Config) (st_num_arg : Nat)
    (obs : Objects) (sp : List svalue) (g : Globals W) :
    Option (Objects × List svalue × Globals W) :=
  let target : Option (Nat × List svalue) :=
    if st_num_arg = 2 then
      match sp with
      | .object ob :: _ => some (ob, pop_stack sp)
      | _ => none
    else some (obs.current_object, sp)
  match target with
  | none => none
  | some (ob, sp1) =>
    match sp1 with
    | .string encoding :: _ =>
      match (obs.table ob).interactive with
      | some ip =>
        match get_translator E cfg (string_ptr encoding) g with
        | (some newt, g1) =>
          some ({ obs with
                  table := Function.update obs.table ob
                    { interactive := some { ip with trans := some newt } } },
                sp1, g1)
        | (none, g1) => some (obs, push_number 0 (pop_stack sp1), g1)
      | none => some (obs, push_number 0 (pop_stack sp1), g)
    | _ => none

/-! ## UTF-8 -/

/-- The UTF-8 encoding of the scalar value `c` (RFC 3629): one byte below
0x80, two bytes below 0x800, three bytes below 0x10000 and four bytes
otherwise.  This is the input the statement about encoded text speaks of; the
file itself does not encode. -/
def utf8_encode (c : Nat) : List Byte :=
  if c < 0x80 then [Fin.ofNat c]
  else if c < 0x800 then [Fin.ofNat (0xc0 + c / 64), Fin.ofNat (0x80 + c % 64)]
  else if c < 0x10000 then
    [Fin.ofNat (0xe0 + c / 4096), Fin.ofNat (0x80 + c / 64 % 64), Fin.ofNat (0x80 + c % 64)]
  else
    [Fin.ofNat (0xf0 + c / 262144), Fin.ofNat (0x80 + c / 4096 % 64),
      Fin.ofNat (0x80 + c / 64 % 64), Fin.ofNat (0x80 + c % 64)]

/-- The UTF-8 encoding of a list of scalar values. -/
def utf8_string (cs : List Char) : List Byte :=
  cs.flatMap (fun c => utf8_encode c.toNat)

/-- The state of the first call `translate(1, sampleUnits, 12)` on the initial
state after its first iteration, which reported E2BIG: the buffer has been
replaced by a fresh one of 2 bytes. -/
def sampleRestarted : Globals Unit :=
  { initialGlobals with res := some (List.replicate 2 0xaa), reslen := 2, iconv_calls := 1 }

/-- The text "A" followed by the marker 0xff 0xf9, 3 bytes. -/
def sampleMarked : List Byte := [0x41, 0xff, 0xf9]

/-- The state in which the first call of `translate` enters its loop: the
buffer has just been allocated with one byte. -/
def sampleFirst : Globals Unit :=
  { initialGlobals with res := some [0xaa], reslen := 1 }

/-- The state after the first call `translate(1, sampleMarkedText, 3)` of the
single-byte codec in the build with marker recovery: the buffer of one byte
holds "A" and `errno` is still E2BIG. -/
def sampleStale : Globals Unit :=
  { sampleFirst with res := some [0x41], errno := E2BIG, iconv_calls := 1 }

/-- The state after the further call `translate(1, sampleA, 1)` on
`sampleStale`. -/
def sampleGrown : Globals Unit :=
  { sampleFirst with res := some [0x41, 0], reslen := 2, errno := 0, iconv_calls := 3 }

/-- The invariant of the statics of `translate`: either the buffer is not
allocated and `reslen` is 0, or it is allocated and `reslen` is a power of
two. -/
def CapacityOk {W : Type} (g : Globals W) : Prop :=
  (g.res = none ∧ g.reslen = 0) ∨ (g.res.isSome = true ∧ ∃ k, g.reslen = 2 ^ k)

/-- An object table in which object 5 is interactive, without a translator
yet, and every other object is not; the current object is 5. -/
def sampleObjects : Objects :=
  { table := fun n => if n = 5 then { interactive := some { trans := none } }
                      else { interactive := none }
    current_object := 5 }

/-- The state after a `get_translator("L1")` that failed on the initial
state. -/
def sampleFailed : Globals Unit :=
  { initialGlobals with
    errno := EINVAL
    opened := [(UTF8, sampleUnknown), (sampleUnknown ++ TRANSLIT_IGNORE, UTF8)] }

/-- The text "A", the marker 0xff 0xf9 and the invalid byte 0x81, with the
terminator: 5 bytes. -/
def sampleInvalid : List Byte := [0x41, 0xff, 0xf9, 0x81, 0]

/-- The text "A" with its terminator, 2 bytes. -/
def sampleA : List Byte := [0x41, 0]

/-- The text "A" followed by the marker 0xff 0xf9, with its terminator: 4
bytes. -/
def sampleMarkedText : List Byte := [0x41, 0xff, 0xf9, 0]

/-! ## Lemmas on strings -/

theorem strlen_le (m : List Byte) : strlen m ≤ m.length := by
  induction m with
  | nil => simp [strlen]
  | cons b rest ih =>
    simp only [strlen, List.length_cons]
    split <;> omega

theorem length_cstr (m : List Byte) : (cstr m).length = strlen m := by
  simp [cstr, strlen_le]

theorem cstr_nil : cstr [] = [] := by simp [cstr]

theorem cstr_cons (b : Byte) (rest : List Byte) :
    cstr (b :: rest) = if b = 0 then [] else b :: cstr rest := by
  by_cases h : b = 0 <;> simp [cstr, strlen, h]

theorem cstr_ne_zero (m : List Byte) : ∀ b ∈ cstr m, b ≠ 0 := by
  induction m with
  | nil => simp [cstr_nil]
  | cons a rest ih =>
    rw [cstr_cons]
    by_cases h : a = 0
    · simp [h]
    · simp only [h, if_false, List.mem_cons]
      rintro b (rfl | hb)
      · exact h
      · exact ih b hb

theorem strlen_of_ne_zero (m : List Byte) (h : ∀ b ∈ m, b ≠ 0) : strlen m = m.length := by
  induction m with
  | nil => simp [strlen]
  | cons a rest ih =>
    have ha : a ≠ 0 := h a (by simp)
    simp [strlen, ha, ih (fun b hb => h b (by simp [hb]))]

theorem cstr_of_ne_zero (m : List Byte) (h : ∀ b ∈ m, b ≠ 0) : cstr m = m := by
  simp [cstr, strlen_of_ne_zero m h]

theorem cstr_cstr (m : List Byte) : cstr (cstr m) = cstr m :=
  cstr_of_ne_zero _ (cstr_ne_zero m)

theorem strlen_append_zero (text rest : List Byte) (h : ∀ b ∈ text, b ≠ 0) :
    strlen (text ++ 0 :: rest) = text.length := by
  induction text with
  | nil => simp [strlen]
  | cons a t ih =>
    have ha : a ≠ 0 := h a (by simp)
    simp [strlen, ha, ih (fun b hb => h b (by simp [hb]))]

theorem strcmp_eq_zero_iff (a b : List Byte) : strcmp a b = 0 ↔ cstr a = cstr b := by
  induction a generalizing b with
  | nil =>
    cases b with
    | nil => simp [strcmp]
    | cons y ys =>
      simp only [strcmp, cstr_nil, cstr_cons]
      by_cases hy : y = 0
      · simp [hy]
      · have : (y.val : Int) ≠ 0 := by
          intro h
          exact hy (Fin.ext (by exact_mod_cast h))
        simp [hy, this]
  | cons x xs ih =>
    cases b with
    | nil =>
      simp only [strcmp, cstr_nil, cstr_cons]
      by_cases hx : x = 0
      · simp [hx]
      · have : (x.val : Int) ≠ 0 := by
          intro h
          exact hx (Fin.ext (by exact_mod_cast h))
        simp [hx, this]
    | cons y ys =>
      simp only [strcmp, cstr_cons]
      by_cases hxy : x = y
      · subst hxy
        by_cases hx : x = 0
        · simp [hx]
        · simp [hx, ih ys]
      · have hv : (x.val : Int) - (y.val : Int) ≠ 0 := by
          intro h
          exact hxy (Fin.ext (by omega))
        simp only [ne_eq, hxy, not_false_eq_true, if_true, hv, false_iff]
        by_cases hx : x = 0
        · by_cases hy : y = 0
          · exact absurd (hx.trans hy.symm) hxy
          · simp [hx, hy]
        · by_cases hy : y = 0
          · simp [hx, hy]
          · simp only [hx, hy, if_false, List.cons.injEq, not_and]
            exact fun h => absurd h hxy

/-! ## Lemmas on the registry -/

theorem link_last_eq_append (l : List translation) (t : translation) :
    link_last l t = l ++ [t] := by
  induction l with
  | nil => rfl
  | cons a l ih => simp [link_last, ih]

theorem outgoing_name_eq (cfg : Config) (encoding : List Byte) :
    outgoing_name cfg encoding =
      if cfg.linux then cstr encoding ++ TRANSLIT_IGNORE else cstr encoding := by
  have h : cstr TRANSLIT_IGNORE = TRANSLIT_IGNORE := by decide
  simp [outgoing_name, strcat, strcpy, cstr_cstr, h]

theorem stored_name_eq (cfg : Config) (encoding : List Byte) :
    (outgoing_name cfg encoding).take (strlen encoding) = cstr encoding := by
  rw [outgoing_name_eq]
  have hl : (cstr encoding).length = strlen encoding := length_cstr encoding
  split
  · rw [← hl, List.take_left]
  · rw [← hl, List.take_length]

theorem find_translator_eq_none_iff (l : List translation) (encoding : List Byte) :
    find_translator l encoding = none ↔ ∀ t ∈ l, cstr t.name ≠ cstr encoding := by
  induction l with
  | nil => simp [find_translator]
  | cons a l ih =>
    simp only [find_translator, strcmp_eq_zero_iff, List.mem_cons, forall_eq_or_imp]
    by_cases h : cstr a.name = cstr encoding
    · simp [h]
    · simp [h, ih]

theorem find_translator_some (l : List translation) (encoding : List Byte) (t : translation)
    (h : find_translator l encoding = some t) : t ∈ l ∧ cstr t.name = cstr encoding := by
  induction l with
  | nil => simp [find_translator] at h
  | cons a l ih =>
    simp only [find_translator, strcmp_eq_zero_iff] at h
    by_cases ha : cstr a.name = cstr encoding
    · simp only [ha, if_true, Option.some.injEq] at h
      subst h
      exact ⟨by simp, ha⟩
    · simp only [ha, if_false] at h
      exact ⟨by simp [(ih h).1], (ih h).2⟩

theorem find_translator_append (l l2 : List translation) (encoding : List Byte)
    (t : translation) (h : find_translator l encoding = some t) :
    find_translator (l ++ l2) encoding = some t := by
  induction l with
  | nil => simp [find_translator] at h
  | cons a l ih =>
    simp only [find_translator, List.cons_append] at h ⊢
    split
    · rename_i ha
      simpa [ha] using h
    · rename_i ha
      simp only [ha, if_false] at h
      exact ih h

theorem find_translator_congr (l : List translation) (e1 e2 : List Byte)
    (h : cstr e1 = cstr e2) : find_translator l e1 = find_translator l e2 := by
  induction l with
  | nil => rfl
  | cons a l ih =>
    simp only [find_translator, strcmp_eq_zero_iff, h, ih]

theorem get_translator_hit {W : Type} (E : Env W) (cfg : Config) (encoding : List Byte)
    (g : Globals W) (t : translation) (h : find_translator g.head encoding = some t) :
    get_translator E cfg encoding g = (some t, g) := by
  simp [get_translator, h]

theorem get_translator_miss {W : Type} (E : Env W) (cfg : Config) (encoding : List Byte)
    (g : Globals W) (h : find_translator g.head encoding = none) :
    get_translator E cfg encoding g =
      (let o1 := E.iconv_open g.world cfg.USE_ICONV (cstr encoding)
       let o2 := E.iconv_open o1.world (outgoing_name cfg encoding) cfg.USE_ICONV
       let g1 : Globals W :=
        { g with
          world := o2.world
          errno := o2.err.getD (o1.err.getD g.errno)
          opened := g.opened ++
            [(cfg.USE_ICONV, cstr encoding), (outgoing_name cfg encoding, cfg.USE_ICONV)] }
       if o1.cd = -1 ∨ o2.cd = -1 then (none, g1)
       else
        (some { name := cstr encoding, incoming := o1.cd, outgoing := o2.cd },
         { g1 with
           head := g.head ++ [{ name := cstr encoding, incoming := o1.cd, outgoing := o2.cd }] })) := by
  simp only [get_translator, h, link_last_eq_append]
  rw [show (if cfg.linux = true then strcat (strcpy encoding) TRANSLIT_IGNORE
        else strcpy encoding) = outgoing_name cfg encoding from rfl, stored_name_eq]

/-! ## Lemmas on the effect of calls on the registry -/

theorem translate_loop_head {W : Type} (E : Env W) (cfg : Config) (tr : iconv_t)
    (mes : List Byte) (fuel : Nat) (l : Locals) (g : Globals W) (r : TranslateResult W)
    (h : translate_loop E cfg tr mes fuel l g = some r) : r.g.head = g.head := by
  induction fuel generalizing l g with
  | zero => simp [translate_loop] at h
  | succ n ih =>
    simp only [translate_loop] at h
    split_ifs at h with h1 h2 h3
    · cases h; rfl
    · have h4 := ih _ _ h
      exact h4
    · have h4 := ih _ _ h
      exact h4
    · cases h; rfl

theorem translate_head {W : Type} (E : Env W) (cfg : Config) (fuel : Nat) (tr : iconv_t)
    (mes : List Byte) (inlen : Nat) (g : Globals W) (r : TranslateResult W)
    (h : translate E cfg fuel tr mes inlen g = some r) : r.g.head = g.head := by
  simp only [translate] at h
  split_ifs at h with h1 h2
  · cases h; rfl
  · have h4 := translate_loop_head E cfg tr mes fuel _ _ r h
    exact h4
  · have h4 := translate_loop_head E cfg tr mes fuel _ _ r h
    exact h4

theorem find_translator_append_new (l : List translation) (encoding : List Byte)
    (t : translation) (h : find_translator l encoding = none)
    (ht : cstr t.name = cstr encoding) : find_translator (l ++ [t]) encoding = some t := by
  induction l with
  | nil => simp [find_translator, strcmp_eq_zero_iff, ht]
  | cons a l ih =>
    simp only [find_translator, List.cons_append] at h ⊢
    split_ifs at h with ha
    simp only [ha, if_false]
    exact ih h

/-- What `get_translator` does to the registry: nothing, or one new node at
the end, named by the request, with two valid handles, when no node had that
name. -/
theorem get_translator_head_cases {W : Type} (E : Env W) (cfg : Config)
    (encoding : List Byte) (g : Globals W) :
    (get_translator E cfg encoding g).2.head = g.head ∨
      ∃ t : translation, (get_translator E cfg encoding g).2.head = g.head ++ [t] ∧
        find_translator g.head encoding = none ∧ t.name = cstr encoding ∧
        t.incoming ≠ -1 ∧ t.outgoing ≠ -1 := by
  cases hf : find_translator g.head encoding with
  | some t => left; rw [get_translator_hit E cfg encoding g t hf]
  | none =>
    rw [get_translator_miss E cfg encoding g hf]
    simp only []
    split_ifs with hc
    · left; rfl
    · right
      rw [not_or] at hc
      exact ⟨_, rfl, trivial, rfl, hc.1, hc.2⟩

theorem exec_head_cases {W : Type} (E : Env W) (cfg : Config) (c : Call)
    (g g1 : Globals W) (h : c.exec E cfg g = some g1) :
    g1.head = g.head ∨
      ∃ (encoding : List Byte) (t : translation), g1.head = g.head ++ [t] ∧
        find_translator g.head encoding = none ∧ t.name = cstr encoding ∧
        t.incoming ≠ -1 ∧ t.outgoing ≠ -1 := by
  cases c with
  | get_translator encoding =>
    simp only [Call.exec, Option.some.injEq] at h
    subst h
    rcases get_translator_head_cases E cfg encoding g with h1 | ⟨t, h1⟩
    · exact Or.inl h1
    · exact Or.inr ⟨encoding, t, h1⟩
  | translate fuel tr mes inlen =>
    left
    simp only [Call.exec, Option.map_eq_some'] at h
    obtain ⟨r, hr, rfl⟩ := h
    exact translate_head E cfg fuel tr mes inlen g r hr
  | translate_easy fuel tr mes =>
    left
    simp only [Call.exec, Option.map_eq_some', translate_easy] at h
    obtain ⟨r, hr, rfl⟩ := h
    split_ifs at hr with h0
    · cases hr; rfl
    · cases ht : translate E cfg fuel tr mes (strlen mes + 1) g with
      | none => simp [ht] at hr
      | some r2 =>
        simp only [ht, Option.some.injEq] at hr
        subst hr
        exact translate_head E cfg fuel tr mes _ g r2 ht
  | set_errno e =>
    left
    simp only [Call.exec, Option.some.injEq] at h
    subst h
    rfl

theorem registryOk_append (l : List translation) (encoding : List Byte) (t : translation)
    (hl : RegistryOk l) (hf : find_translator l encoding = none)
    (hn : t.name = cstr encoding) (hi : t.incoming ≠ -1) (ho : t.outgoing ≠ -1) :
    RegistryOk (l ++ [t]) := by
  obtain ⟨hnd, hall⟩ := hl
  rw [find_translator_eq_none_iff] at hf
  refine ⟨?_, ?_⟩
  · rw [List.map_append, List.nodup_append]
    refine ⟨hnd, by simp, ?_⟩
    intro a ha hb
    simp only [List.map_cons, List.map_nil, List.mem_singleton] at hb
    rw [List.mem_map] at ha
    obtain ⟨u, hu, rfl⟩ := ha
    apply hf u hu
    rw [(hall u hu).1, hb, hn]
  · intro u hu
    rw [List.mem_append, List.mem_singleton] at hu
    rcases hu with hu | rfl
    · exact hall u hu
    · exact ⟨by rw [hn, cstr_cstr], hi, ho⟩

theorem run_registryOk {W : Type} (E : Env W) (cfg : Config) (calls : List Call)
    (g g2 : Globals W) (hg : RegistryOk g.head) (h : run E cfg calls g = some g2) :
    RegistryOk g2.head := by
  induction calls generalizing g with
  | nil =>
    simp only [run, Option.some.injEq] at h
    subst h
    exact hg
  | cons c cs ih =>
    simp only [run] at h
    cases hc : c.exec E cfg g with
    | none => simp [hc] at h
    | some g1 =>
      simp only [hc] at h
      apply ih g1 _ h
      rcases exec_head_cases E cfg c g g1 hc with h1 | ⟨encoding, t, h1, hf, hn, hi, ho⟩
      · rw [h1]; exact hg
      · rw [h1]; exact registryOk_append g.head encoding t hg hf hn hi ho

theorem run_find_translator {W : Type} (E : Env W) (cfg : Config) (calls : List Call)
    (g g2 : Globals W) (encoding : List Byte) (t : translation)
    (hf : find_translator g.head encoding = some t) (h : run E cfg calls g = some g2) :
    find_translator g2.head encoding = some t := by
  induction calls generalizing g with
  | nil =>
    simp only [run, Option.some.injEq] at h
    subst h
    exact hf
  | cons c cs ih =>
    simp only [run] at h
    cases hc : c.exec E cfg g with
    | none => simp [hc] at h
    | some g1 =>
      simp only [hc] at h
      apply ih g1 _ h
      rcases exec_head_cases E cfg c g g1 hc with h1 | ⟨_, u, h1, _⟩
      · rw [h1]; exact hf
      · rw [h1]; exact find_translator_append g.head [u] encoding t hf

/-- After a successful `get_translator` the search finds the node that was
returned. -/
theorem get_translator_some_find {W : Type} (E : Env W) (cfg : Config)
    (encoding : List Byte) (g g1 : Globals W) (t : translation)
    (h : get_translator E cfg encoding g = (some t, g1)) :
    find_translator g1.head encoding = some t := by
  cases hf : find_translator g.head encoding with
  | some u =>
    rw [get_translator_hit E cfg encoding g u hf] at h
    cases h
    exact hf
  | none =>
    rw [get_translator_miss E cfg encoding g hf] at h
    simp only [] at h
    split_ifs at h with hc
    · cases h
    · cases h
      exact find_translator_append_new g.head encoding _ hf (cstr_cstr encoding)

/-! ## The identity path of `translate` -/

/-- C1: with the null handle, `translate` returns the pointer `mes` itself and
stores `inlen` in `*outlen`, for every buffer, every length and every amount
of fuel; the state afterwards is the state before, so the codec was not called
(`iconv_calls`, `world`) and the shared buffer was neither allocated nor
changed (`res`, `reslen`).  In particular `translate(0, "hello", 6)` yields
the bytes of "hello" and the length 6. -/
theorem translate_null_handle {W : Type} (E : Env W) (cfg : Config) (fuel : Nat)
    (mes : List Byte) (inlen : Nat) (g : Globals W) :
    translate E cfg fuel 0 mes inlen g =
        some { ret := .mes, outlen := inlen, overrun := false, g := g } ∧
      (translate E cfg fuel 0 mes inlen g).map (fun r => r.deref mes) = some mes ∧
      (translate sampleEnv sampleConfig 0 0 sampleHello 6 initialGlobals).map
        (fun r => (r.deref sampleHello, r.outlen)) = some (sampleHello, 6) := by
  refine ⟨?_, ?_, ?_⟩
  · simp [translate]
  · simp [translate, TranslateResult.deref]
  · simp [translate, TranslateResult.deref]

/-! ## The registry -/

/-- C3: when `get_translator(encoding)` has returned the node `t`, then after
any further calls into the file (lookups, conversions, stores to `errno`) a
`get_translator` with a name that is the same C string returns the same node
`t` and leaves the whole state as it is: no `iconv_open` is recorded in
`opened` and `head` keeps its nodes in their order. -/
theorem get_translator_idempotent {W : Type} (E : Env W) (cfg : Config)
    (encoding encoding2 : List Byte) (g g1 g2 : Globals W) (t : translation)
    (calls : List Call)
    (h1 : get_translator E cfg encoding g = (some t, g1))
    (h2 : run E cfg calls g1 = some g2)
    (h3 : cstr encoding2 = cstr encoding) :
    get_translator E cfg encoding2 g2 = (some t, g2) := by
  apply get_translator_hit
  rw [find_translator_congr g2.head encoding2 encoding h3]
  exact run_find_translator E cfg calls g1 g2 encoding t
    (get_translator_some_find E cfg encoding g g1 t h1) h2

theorem get_translator_idempotent_witness :
    get_translator sampleEnv sampleConfig (UTF32 ++ [0, 7]) sampleLater =
      (some sampleUTF32, sampleLater) :=
  get_translator_idempotent sampleEnv sampleConfig UTF32 (UTF32 ++ [0, 7]) initialGlobals
    sampleRegistered sampleLater sampleUTF32 sampleCalls (by rfl) (by rfl) (by decide)

/-- C4: when no node of the registry bears the requested name and one of the
two `iconv_open` calls returns `(iconv_t)-1`, `get_translator` returns null
and `head` is the list it was. -/
theorem get_translator_open_failure {W : Type} (E : Env W) (cfg : Config)
    (encoding : List Byte) (g : Globals W)
    (hnew : ∀ t ∈ g.head, cstr t.name ≠ cstr encoding)
    (hfail : (E.iconv_open g.world cfg.USE_ICONV (cstr encoding)).cd = -1 ∨
      (E.iconv_open (E.iconv_open g.world cfg.USE_ICONV (cstr encoding)).world
        (outgoing_name cfg encoding) cfg.USE_ICONV).cd = -1) :
    (get_translator E cfg encoding g).1 = none ∧
      (get_translator E cfg encoding g).2.head = g.head := by
  rw [get_translator_miss E cfg encoding g
    ((find_translator_eq_none_iff g.head encoding).2 hnew)]
  simp only [hfail, if_true, and_self]

theorem get_translator_open_failure_witness :
    (get_translator sampleEnv sampleConfig sampleUnknown sampleRegistered).1 = none ∧
      (get_translator sampleEnv sampleConfig sampleUnknown sampleRegistered).2.head =
        [sampleUTF32] :=
  get_translator_open_failure sampleEnv sampleConfig sampleUnknown sampleRegistered
    (by decide) (by decide)

/-- C5: in every state reached from a state with an empty registry by any
sequence of calls into the file, on the Linux build and on the others, no two
nodes of the registry bear the same name. -/
theorem registry_names_nodup {W : Type} (E : Env W) (cfg : Config) (calls : List Call)
    (g g2 : Globals W) (h0 : g.head = []) (h : run E cfg calls g = some g2) :
    (g2.head.map (fun t => t.name)).Nodup :=
  (run_registryOk E cfg calls g g2 (by rw [h0]; exact ⟨by simp, by simp⟩) h).1

theorem registry_names_nodup_witness :
    (sampleLater.head.map (fun t => t.name)).Nodup :=
  registry_names_nodup sampleEnv sampleConfig (.get_translator UTF32 :: sampleCalls)
    initialGlobals sampleLater (by rfl) (by rfl)

/-- C6: when no node of the registry bears the requested name and both
`iconv_open` calls succeed, `get_translator` returns a new node whose name is
the requested C string, without the "//TRANSLIT//IGNORE" that the second
`iconv_open` was given on Linux, and whose handles are the two handles
opened; `head` is the former list with that one node added at the end. -/
theorem get_translator_registers {W : Type} (E : Env W) (cfg : Config)
    (encoding : List Byte) (g : Globals W)
    (hnew : ∀ t ∈ g.head, cstr t.name ≠ cstr encoding)
    (hin : (E.iconv_open g.world cfg.USE_ICONV (cstr encoding)).cd ≠ -1)
    (hout : (E.iconv_open (E.iconv_open g.world cfg.USE_ICONV (cstr encoding)).world
        (outgoing_name cfg encoding) cfg.USE_ICONV).cd ≠ -1) :
    (get_translator E cfg encoding g).1 =
        some
          { name := cstr encoding
            incoming := (E.iconv_open g.world cfg.USE_ICONV (cstr encoding)).cd
            outgoing := (E.iconv_open (E.iconv_open g.world cfg.USE_ICONV (cstr encoding)).world
              (outgoing_name cfg encoding) cfg.USE_ICONV).cd } ∧
      (get_translator E cfg encoding g).2.head =
        g.head ++
          [{ name := cstr encoding
             incoming := (E.iconv_open g.world cfg.USE_ICONV (cstr encoding)).cd
             outgoing := (E.iconv_open (E.iconv_open g.world cfg.USE_ICONV (cstr encoding)).world
              (outgoing_name cfg encoding) cfg.USE_ICONV).cd }] ∧
      (get_translator E cfg encoding g).2.opened =
        g.opened ++ [(cfg.USE_ICONV, cstr encoding),
          (if cfg.linux then cstr encoding ++ TRANSLIT_IGNORE else cstr encoding,
            cfg.USE_ICONV)] := by
  rw [get_translator_miss E cfg encoding g
    ((find_translator_eq_none_iff g.head encoding).2 hnew), ← outgoing_name_eq]
  simp only [hin, hout, or_self, if_false, and_self]

theorem get_translator_registers_witness :
    (get_translator sampleEnv sampleConfig UTF32 initialGlobals).1 = some sampleUTF32 ∧
      (get_translator sampleEnv sampleConfig UTF32 initialGlobals).2.head =
        [] ++ [sampleUTF32] ∧
      (get_translator sampleEnv sampleConfig UTF32 initialGlobals).2.opened =
        [] ++ [(UTF8, UTF32), (UTF32 ++ TRANSLIT_IGNORE, UTF8)] :=
  get_translator_registers sampleEnv sampleConfig UTF32 initialGlobals
    (by decide) (by decide) (by decide)

/-- C7: in every state reached from a state with an empty registry by any
sequence of calls into the file, both handles of every node of the registry
differ from `(iconv_t)-1`, and every node `get_translator` returns in such a
state is in the registry afterwards, with both handles valid. -/
theorem registry_handles_valid {W : Type} (E : Env W) (cfg : Config) (calls : List Call)
    (g g2 : Globals W) (h0 : g.head = []) (h : run E cfg calls g = some g2) :
    (∀ t ∈ g2.head, t.incoming ≠ -1 ∧ t.outgoing ≠ -1) ∧
      ∀ (encoding : List Byte) (t : translation) (g3 : Globals W),
        get_translator E cfg encoding g2 = (some t, g3) →
          t ∈ g3.head ∧ t.incoming ≠ -1 ∧ t.outgoing ≠ -1 := by
  have hok : RegistryOk g2.head :=
    run_registryOk E cfg calls g g2 (by rw [h0]; exact ⟨by simp, by simp⟩) h
  refine ⟨fun t ht => (hok.2 t ht).2, ?_⟩
  intro encoding t g3 hget
  have hmem : t ∈ g3.head :=
    (find_translator_some g3.head encoding t
      (get_translator_some_find E cfg encoding g2 g3 t hget)).1
  have hok3 : RegistryOk g3.head := by
    apply run_registryOk E cfg [.get_translator encoding] g2 g3 hok
    simp [run, Call.exec, hget]
  exact ⟨hmem, (hok3.2 t hmem).2⟩

theorem registry_handles_valid_witness :
    (sampleUTF32.incoming ≠ -1 ∧ sampleUTF32.outgoing ≠ -1) ∧
      (sampleUTF32 ∈ sampleLater.head ∧ sampleUTF32.incoming ≠ -1 ∧
        sampleUTF32.outgoing ≠ -1) :=
  ⟨(registry_handles_valid sampleEnv sampleConfig (.get_translator UTF32 :: sampleCalls)
      initialGlobals sampleLater (by rfl) (by rfl)).1 sampleUTF32 (by decide),
    (registry_handles_valid sampleEnv sampleConfig (.get_translator UTF32 :: sampleCalls)
      initialGlobals sampleLater (by rfl) (by rfl)).2 UTF32 sampleUTF32 sampleLater (by rfl)⟩

/-! ## The width counter -/

theorem range_map_getD (s : List Byte) :
    (List.range s.length).map (fun i => s.getD i 0) = s := by
  apply List.ext_getElem
  · simp
  · intro i h1 h2
    simp [List.getD_eq_getElem?_getD, List.getElem?_eq_getElem h2]

theorem int_and_c0_iff (char_signed : Bool) (b : Byte) :
    int_and (char_to_int char_signed b) 0xc0 = 0x80 ↔ b.val &&& 0xc0 = 0x80 := by
  revert b
  cases char_signed
  · set_option maxRecDepth 100000 in decide
  · set_option maxRecDepth 100000 in decide

theorem foldl_width (char_signed : Bool) (s : List Byte) (init : Int) :
    s.foldl (fun w b => w + (if int_and (char_to_int char_signed b) 0xc0 = 0x80 then 0 else 1))
        init =
      init + (s.countP (fun b => decide (b.val &&& 0xc0 ≠ 0x80)) : Nat) := by
  induction s generalizing init with
  | nil => simp
  | cons a s ih =>
    rw [List.foldl_cons, ih, List.countP_cons]
    by_cases h : a.val &&& 0xc0 = 0x80
    · simp [(int_and_c0_iff char_signed a).2 h, h]
    · have h2 : ¬ int_and (char_to_int char_signed a) 0xc0 = 0x80 :=
        fun hc => h ((int_and_c0_iff char_signed a).1 hc)
      simp only [h2, if_false, ne_eq, h, not_false_eq_true, decide_True, if_true]
      push_cast
      ring

/-- C8: on a stack whose top is the string `s`, `f_strwidth` replaces the top
by the number of bytes `b` of `s` with `(b AND 0xC0) ≠ 0x80`, whether `char`
is signed or not.  It gives 1 for "A", 1 for a character of two bytes, 4 for
four characters of one byte, and 3 for a character of three bytes followed by
two characters of one byte. -/
theorem f_strwidth_counts (char_signed : Bool) (s : List Byte) (sp : List svalue) :
    f_strwidth char_signed (.string s :: sp) =
        some (.number (s.countP (fun b => decide (b.val &&& 0xc0 ≠ 0x80)) : Nat) :: sp) ∧
      f_strwidth char_signed [.string [0x41]] = some [.number 1] ∧
      f_strwidth char_signed [.string [0xc3, 0xa9]] = some [.number 1] ∧
      f_strwidth char_signed [.string [0x61, 0x62, 0x63, 0x64]] = some [.number 4] ∧
      f_strwidth char_signed [.string [0xe4, 0xbd, 0xa0, 0x61, 0x62]] = some [.number 3] := by
  have key : ∀ (t : List Byte) (st : List svalue),
      f_strwidth char_signed (.string t :: st) =
        some (.number (t.countP (fun b => decide (b.val &&& 0xc0 ≠ 0x80)) : Nat) :: st) := by
    intro t st
    have h1 : (List.range t.length).foldl (strwidth_step char_signed t) 0 =
        ((List.range t.length).map (fun i => t.getD i 0)).foldl
          (fun w b => w + (if int_and (char_to_int char_signed b) 0xc0 = 0x80 then 0 else 1))
          0 := by
      rw [List.foldl_map]
      rfl
    simp only [f_strwidth, push_number, pop_stack, List.tail_cons, h1, range_map_getD,
      foldl_width, zero_add]
  refine ⟨key s sp, ?_, ?_, ?_, ?_⟩ <;> rw [key] <;> decide

/-! ## The conversion loop on concrete inputs -/

/-- C2, the code at the failing input: the 12 bytes that `f_arr_to_str` builds
for `({ 65, 66 })`, converted by the sample codec.  With a buffer of 16 bytes
the result is the 3 bytes "AB" and a zero byte.  On the first call, where the
buffer has 1 byte, the first pass reports E2BIG and the loop restarts with
`len = strlen(mes) + 1 = 2` instead of 12: the result has length 0, after two
`iconv` calls and with a buffer of 2 bytes. -/
theorem translate_restart_uses_strlen :
    (translate sampleEnv sampleConfig 3 1 sampleUnits 12 sampleRoomy).map
        (fun r => (r.outlen, (r.deref sampleUnits).take r.outlen, r.g.reslen, r.g.iconv_calls)) =
        some (3, [0x41, 0x42, 0], 16, 1) ∧
      (translate sampleEnv sampleConfig 3 1 sampleUnits 12 initialGlobals).map
        (fun r => (r.outlen, (r.deref sampleUnits).take r.outlen, r.g.reslen, r.g.iconv_calls)) =
        some (0, [], 2, 2) ∧
      strlen sampleUnits + 1 = 2 := by
  refine ⟨by decide, by decide, by decide⟩

/-- C9: `translate_easy` with the null handle returns the pointer `mes` and
leaves the state alone; with any other handle it returns the pointer and the
state that `translate` returns for the same handle and text with the input
length `strlen(mes) + 1`.  For a text without zero bytes followed by its
terminator that length is the length of the text plus one, and the input
handed to the first `iconv` call is the text with its terminator. -/
theorem translate_easy_spec {W : Type} (E : Env W) (cfg : Config) (fuel : Nat)
    (tr : iconv_t) (text rest : List Byte) (g : Globals W) (h : ∀ b ∈ text, b ≠ 0) :
    translate_easy E cfg fuel 0 (text ++ 0 :: rest) g = some (.mes, g) ∧
      translate_easy E cfg fuel tr (text ++ 0 :: rest) g =
        (if tr = 0 then some (.mes, g)
         else (translate E cfg fuel tr (text ++ 0 :: rest) (text.length + 1) g).map
          (fun r => (r.ret, r.g))) ∧
      strlen (text ++ 0 :: rest) + 1 = text.length + 1 ∧
      ((text ++ 0 :: rest).drop 0).take (strlen (text ++ 0 :: rest) + 1) = text ++ [0] := by
  have hl := strlen_append_zero text rest h
  refine ⟨by simp [translate_easy], ?_, by rw [hl], ?_⟩
  · simp only [translate_easy, hl]
    split_ifs with h0
    · rfl
    · cases translate E cfg fuel tr (text ++ 0 :: rest) (text.length + 1) g <;> rfl
  · rw [hl, List.drop_zero, List.take_append_eq_append_take]
    simp

theorem translate_easy_spec_witness :
    translate_easy sampleEnv sampleConfig 3 0 (sampleText ++ 0 :: [7]) sampleRoomy =
        some (.mes, sampleRoomy) ∧
      translate_easy sampleEnv sampleConfig 3 1 (sampleText ++ 0 :: [7]) sampleRoomy =
        (if (1 : iconv_t) = 0 then some (.mes, sampleRoomy)
         else (translate sampleEnv sampleConfig 3 1 (sampleText ++ 0 :: [7])
            (sampleText.length + 1) sampleRoomy).map (fun r => (r.ret, r.g))) ∧
      strlen (sampleText ++ 0 :: [7]) + 1 = sampleText.length + 1 ∧
      ((sampleText ++ 0 :: [7]).drop 0).take (strlen (sampleText ++ 0 :: [7]) + 1) =
        sampleText ++ [0] :=
  translate_easy_spec sampleEnv sampleConfig 3 1 sampleText [7] sampleRoomy
    (by simp [sampleText])

/-- C10, the code at the failing input: with `inlen = 0` the loop body is
never entered, in either build; `translate` returns the static buffer and the
length 0 without a call to `iconv` and without the store `tmp2[0] = 0`.  On
the first call the byte at the returned pointer is the uninitialised byte of
the fresh block (0xaa here); after an earlier conversion it is the first byte
of that conversion's output (0x41 here).  The same exit is taken in the
`PACKAGE_DWLIB` build when the marker 0xff 0xf9 that is skipped ends the
input: the one byte produced is followed by a byte of the old content. -/
theorem translate_empty_input_unterminated (dwlib : Bool) :
    (translate sampleEnv { sampleConfig with PACKAGE_DWLIB := dwlib } 1 1 [] 0
        initialGlobals).map (fun r => (r.outlen, r.deref [], r.g.iconv_calls)) =
        some (0, [0xaa], 0) ∧
      (translate sampleEnv sampleConfig 1 1 sampleUnits 12 sampleRoomy).map
        (fun r => (r.outlen, r.g.res, r.g.reslen, r.g.iconv_calls)) =
        some (3, sampleWarm.res, sampleWarm.reslen, sampleWarm.iconv_calls) ∧
      (translate sampleEnv { sampleConfig with PACKAGE_DWLIB := dwlib } 1 1 [] 0
        sampleWarm).map (fun r => (r.outlen, (r.deref []).take 3, r.g.iconv_calls)) =
        some (0, [0x41, 0x42, 0], 1) ∧
      (translate sampleEnv { sampleConfig with PACKAGE_DWLIB := true } 2 1
        [0x41, 0, 0, 0, 0xff, 0xf9] 6 sampleRoomy).map
        (fun r => (r.outlen, (r.deref []).take 2, r.g.iconv_calls)) =
        some (1, [0x41, 0xaa], 1) := by
  cases dwlib <;> refine ⟨by decide, by decide, by decide, by decide⟩

/-! ## Lemmas on one iteration -/

theorem translate_loop_succ {W : Type} (E : Env W) (cfg : Config) (tr : iconv_t)
    (mes : List Byte) (fuel : Nat) (l : Locals) (g : Globals W) :
    translate_loop E cfg tr mes (fuel + 1) l g =
      match translate_step E cfg tr mes l g with
      | .done r => some r
      | .again l1 g1 => translate_loop E cfg tr mes fuel l1 g1 := by
  simp only [translate_loop, translate_step, iconv_pass, after_pass, marker_next]
  split_ifs <;> rfl

theorem take_set_self (buf : List Byte) (n : Nat) (b : Byte) :
    (buf.set n b).take n = buf.take n := by
  rw [List.set_take, List.set_eq_of_length_le]
  simp

theorem store_zero_take (buf bytes : List Byte) :
    (store buf 0 bytes).take bytes.length = bytes := by
  simp [store]

/-- The last iteration of a pass that began at the start of the buffer: when
`errno` is not E2BIG after the call, the loop returns the bytes of this call
and their number. -/
theorem translate_step_done {W : Type} (E : Env W) (cfg : Config) (tr : iconv_t)
    (mes : List Byte) (l : Locals) (g : Globals W)
    (hlen : l.len ≠ 0) (hm : ¬ marker_next cfg mes l (iconv_pass E tr mes l g).consumed)
    (h2 : l.tmp2 = 0) (h3 : l.len2 = g.reslen)
    (herr : (after_pass E tr mes l g).errno ≠ E2BIG) :
    ∃ r, translate_step E cfg tr mes l g = .done r ∧ r.ret = .res ∧
      r.g.iconv_calls = g.iconv_calls + 1 ∧ r.g.world = (iconv_pass E tr mes l g).world ∧
      r.g.reslen = g.reslen ∧ r.g.head = g.head ∧
      r.outlen = (iconv_pass E tr mes l g).produced.length ∧
      (r.deref mes).take r.outlen = (iconv_pass E tr mes l g).produced := by
  have hp : (iconv_pass E tr mes l g).produced.length ≤ g.reslen := by
    have h0 : (iconv_pass E tr mes l g).produced.length ≤ l.len2 :=
      E.produced_le g.world tr ((mes.drop l.tmp).take l.len) l.len2
    rw [← h3]
    exact h0
  refine ⟨_, by simp only [translate_step, hlen, hm, herr, if_false]; rfl, rfl, rfl, rfl, rfl,
    rfl, ?_, ?_⟩
  · show (after_pass E tr mes l g).reslen - (l.len2 - _) = _
    simp only [after_pass, h3]
    omega
  · show List.take ((after_pass E tr mes l g).reslen - (l.len2 - _)) _ = _
    have h4 : (after_pass E tr mes l g).reslen -
        (l.len2 - (iconv_pass E tr mes l g).produced.length) =
        (iconv_pass E tr mes l g).produced.length := by
      simp only [after_pass, h3]
      omega
    rw [h4]
    simp only [TranslateResult.deref, after_pass, h2, Option.getD_some, Nat.zero_add]
    rw [take_set_self, store_zero_take]

theorem translate_eq_loop {W : Type} (E : Env W) (cfg : Config) (fuel : Nat) (tr : iconv_t)
    (mes : List Byte) (inlen : Nat) (g : Globals W) (htr : tr ≠ 0) :
    translate E cfg fuel tr mes inlen g =
      translate_loop E cfg tr mes fuel (entry_locals inlen (translate_entry E g))
        (translate_entry E g) := by
  simp only [translate, htr, if_false, entry_locals, translate_entry]

theorem translate_loop_of_loop_state {W : Type} (E : Env W) (cfg : Config) (tr : iconv_t)
    (mes : List Byte) (n fuel : Nat) (l0 l : Locals) (g0 g : Globals W)
    (h : loop_state E cfg tr mes n l0 g0 = some (l, g)) :
    translate_loop E cfg tr mes (n + fuel) l0 g0 = translate_loop E cfg tr mes fuel l g := by
  induction n generalizing l0 g0 with
  | zero =>
    simp only [loop_state, Option.some.injEq, Prod.mk.injEq] at h
    rw [h.1, h.2, Nat.zero_add]
  | succ n ih =>
    rw [show n + 1 + fuel = (n + fuel) + 1 by omega, translate_loop_succ]
    simp only [loop_state] at h
    cases hs : translate_step E cfg tr mes l0 g0 with
    | done r => simp [hs] at h
    | again l1 g1 =>
      simp only [hs] at h
      exact ih l1 g1 h

/-- In a build without marker recovery every iteration starts a pass: the
input cursor and the output cursor are at the start and the whole buffer is
free. -/
theorem loop_state_pass_start {W : Type} (E : Env W) (cfg : Config) (tr : iconv_t)
    (mes : List Byte) (n : Nat) (l0 l : Locals) (g0 g : Globals W)
    (hcfg : cfg.PACKAGE_DWLIB = false)
    (h0 : l0.tmp = 0 ∧ l0.tmp2 = 0 ∧ l0.len2 = g0.reslen)
    (h : loop_state E cfg tr mes n l0 g0 = some (l, g)) :
    l.tmp = 0 ∧ l.tmp2 = 0 ∧ l.len2 = g.reslen := by
  induction n generalizing l0 g0 with
  | zero =>
    simp only [loop_state, Option.some.injEq, Prod.mk.injEq] at h
    rw [← h.1, ← h.2]
    exact h0
  | succ n ih =>
    simp only [loop_state] at h
    cases hs : translate_step E cfg tr mes l0 g0 with
    | done r => simp [hs] at h
    | again l1 g1 =>
      simp only [hs] at h
      apply ih l1 g1 _ h
      simp only [translate_step, marker_next, hcfg] at hs
      split_ifs at hs with ha hb hc <;> cases hs
      · exact hb.1.elim
      · exact ⟨rfl, rfl, rfl⟩

/-! ## Errors other than E2BIG -/

/-- C11: in a build without marker recovery, take any iteration of the loop
of a `translate` call with a non-null handle (the iteration number `n`, which
starts with the locals `l` in the state `g1`) whose `iconv` call reports an
error `e` other than E2BIG.  Then `translate` returns right after that call:
the count of `iconv` calls is one more than before the iteration and the
codec is left in the state of that call, the capacity is the one the iteration
started with, the length returned is the number of bytes that call produced
and the buffer returned starts with exactly these bytes. -/
theorem translate_stops_on_error {W : Type} (E : Env W) (cfg : Config) (tr : iconv_t)
    (mes : List Byte) (inlen : Nat) (g : Globals W) (n fuel : Nat) (l : Locals)
    (g1 : Globals W) (e : Nat)
    (hcfg : cfg.PACKAGE_DWLIB = false) (htr : tr ≠ 0)
    (hn : loop_state E cfg tr mes n (entry_locals inlen (translate_entry E g))
      (translate_entry E g) = some (l, g1))
    (hlen : l.len ≠ 0)
    (herr : (iconv_pass E tr mes l g1).err = some e) (hne : e ≠ E2BIG) :
    (translate E cfg (n + (fuel + 1)) tr mes inlen g).map
        (fun r => (r.ret, r.g.iconv_calls, r.g.world, r.g.reslen, r.outlen,
          (r.deref mes).take r.outlen)) =
      some (.res, g1.iconv_calls + 1, (iconv_pass E tr mes l g1).world, g1.reslen,
        (iconv_pass E tr mes l g1).produced.length, (iconv_pass E tr mes l g1).produced) := by
  have hps := loop_state_pass_start E cfg tr mes n _ l _ g1 hcfg ⟨rfl, rfl, rfl⟩ hn
  have hm : ¬ marker_next cfg mes l (iconv_pass E tr mes l g1).consumed := by
    simp [marker_next, hcfg]
  have he : (after_pass E tr mes l g1).errno ≠ E2BIG := by
    simp only [after_pass, herr, Option.getD_some]
    exact hne
  obtain ⟨r, hr, h1, h2, h3, h4, _, h6, h7⟩ :=
    translate_step_done E cfg tr mes l g1 hlen hm hps.2.1 hps.2.2 he
  rw [translate_eq_loop E cfg _ tr mes inlen g htr,
    translate_loop_of_loop_state E cfg tr mes n (fuel + 1) _ l _ g1 hn, translate_loop_succ, hr]
  rw [h6] at h7
  simp only [Option.map_some', h1, h2, h3, h4, h6, h7]

theorem translate_stops_on_error_witness :
    (translate sampleEnv sampleConfig (1 + (0 + 1)) 1 sampleUnits 12 initialGlobals).map
        (fun r => (r.ret, r.g.iconv_calls, r.g.world, r.g.reslen, r.outlen,
          (r.deref sampleUnits).take r.outlen)) =
      some (.res, sampleRestarted.iconv_calls + 1,
        (iconv_pass sampleEnv 1 sampleUnits { len := 2, tmp := 0, tmp2 := 0, len2 := 2 }
          sampleRestarted).world, sampleRestarted.reslen,
        (iconv_pass sampleEnv 1 sampleUnits { len := 2, tmp := 0, tmp2 := 0, len2 := 2 }
          sampleRestarted).produced.length,
        (iconv_pass sampleEnv 1 sampleUnits { len := 2, tmp := 0, tmp2 := 0, len2 := 2 }
          sampleRestarted).produced) :=
  translate_stops_on_error sampleEnv sampleConfig 1 sampleUnits 12 initialGlobals 1 0
    { len := 2, tmp := 0, tmp2 := 0, len2 := 2 } sampleRestarted EINVAL
    (by rfl) (by decide) (by rfl) (by decide) (by rfl) (by decide)

/-! ## The marker 0xff 0xf9 -/

/-- C12, as stated, fails: in the build with marker recovery, on the first
call with the single-byte codec and the input "A" 0xff 0xf9, the `iconv`
call writes "A" and reports E2BIG (not an invalid sequence); the two bytes
0xff 0xf9 are skipped all the same, so the loop ends without a restart and the
call returns the one byte "A" in a buffer of one byte, where a buffer of 16
bytes gives all three bytes. -/
theorem marker_skipped_after_e2big :
    (iconv_pass latinEnv 1 sampleMarked (entry_locals 3 sampleFirst) sampleFirst).err =
        some E2BIG ∧
      (iconv_pass latinEnv 1 sampleMarked (entry_locals 3 sampleFirst) sampleFirst).consumed =
        1 ∧
      translate_step latinEnv dwlibConfig 1 sampleMarked (entry_locals 3 sampleFirst)
          sampleFirst =
        .again { len := 0, tmp := 3, tmp2 := 1, len2 := 0 }
          { sampleFirst with res := some [0x41], errno := E2BIG, iconv_calls := 1 } ∧
      (translate latinEnv dwlibConfig 2 1 sampleMarked 3 initialGlobals).map
          (fun r => (r.outlen, (r.deref sampleMarked).take r.outlen, r.g.reslen,
            r.g.iconv_calls)) = some (1, [0x41], 1, 1) ∧
      (translate latinEnv dwlibConfig 2 1 sampleMarked 3 sampleRoomy).map
          (fun r => (r.outlen, (r.deref sampleMarked).take r.outlen, r.g.reslen,
            r.g.iconv_calls)) = some (3, [0x41, 0xff, 0xf9], 16, 1) := by
  refine ⟨by decide, by decide, by rfl, by decide, by decide⟩

/-- C12, amended: an iteration of the loop that makes an `iconv` call ends in
one of three ways.  (1) More than one input byte is left after the call and
the next two are 0xff 0xf9, in the build with marker recovery: whatever the
call reported, exactly these two bytes are skipped and the loop resumes behind
them, with the output where the call left it.  (2) Otherwise, if `errno` is
E2BIG: the loop restarts at the first input byte with a buffer of twice the
size.  (3) Otherwise `translate` returns.  So input is skipped only in case
(1), and never after a call that consumed all it was given. -/
theorem marker_skip_spec {W : Type} (E : Env W) (cfg : Config) (tr : iconv_t)
    (mes : List Byte) (l : Locals) (g : Globals W) (hlen : l.len ≠ 0) :
    (marker_next cfg mes l (iconv_pass E tr mes l g).consumed ∧
        cfg.PACKAGE_DWLIB = true ∧
        (iconv_pass E tr mes l g).consumed + 2 ≤ l.len ∧
        mes.getD (l.tmp + (iconv_pass E tr mes l g).consumed) 0 = 0xff ∧
        mes.getD (l.tmp + (iconv_pass E tr mes l g).consumed + 1) 0 = 0xf9 ∧
        translate_step E cfg tr mes l g =
          .again
            { len := l.len - (iconv_pass E tr mes l g).consumed - 2
              tmp := l.tmp + (iconv_pass E tr mes l g).consumed + 2
              tmp2 := l.tmp2 + (iconv_pass E tr mes l g).produced.length
              len2 := l.len2 - (iconv_pass E tr mes l g).produced.length }
            (after_pass E tr mes l g)) ∨
      (¬ marker_next cfg mes l (iconv_pass E tr mes l g).consumed ∧
        (after_pass E tr mes l g).errno = E2BIG ∧
        translate_step E cfg tr mes l g =
          .again { len := strlen mes + 1, tmp := 0, tmp2 := 0, len2 := g.reslen * 2 }
            { after_pass E tr mes l g with
              errno := 0, res := some (E.DMALLOC (g.reslen * 2)), reslen := g.reslen * 2 }) ∨
      (¬ marker_next cfg mes l (iconv_pass E tr mes l g).consumed ∧
        (after_pass E tr mes l g).errno ≠ E2BIG ∧
        ∃ r, translate_step E cfg tr mes l g = .done r ∧ r.g.reslen = g.reslen ∧
          r.g.iconv_calls = g.iconv_calls + 1) := by
  by_cases hm : marker_next cfg mes l (iconv_pass E tr mes l g).consumed
  · left
    refine ⟨hm, hm.1, ?_, hm.2.2.1, hm.2.2.2, ?_⟩
    · have := hm.2.1
      omega
    · simp only [translate_step, hlen, hm, if_true, if_false]
  · right
    by_cases he : (after_pass E tr mes l g).errno = E2BIG
    · left
      refine ⟨hm, he, ?_⟩
      simp only [translate_step, hlen, hm, he, if_true, if_false]
      rfl
    · right
      refine ⟨hm, he, ?_⟩
      simp only [translate_step, hlen, hm, he, if_false]
      exact ⟨_, rfl, rfl, rfl⟩

theorem marker_skip_spec_witness :
    (marker_next dwlibConfig sampleMarked (entry_locals 3 sampleFirst)
          (iconv_pass latinEnv 1 sampleMarked (entry_locals 3 sampleFirst) sampleFirst).consumed ∧
        dwlibConfig.PACKAGE_DWLIB = true ∧
        (iconv_pass latinEnv 1 sampleMarked (entry_locals 3 sampleFirst) sampleFirst).consumed
          + 2 ≤ (entry_locals 3 sampleFirst).len ∧
        sampleMarked.getD ((entry_locals 3 sampleFirst).tmp +
          (iconv_pass latinEnv 1 sampleMarked (entry_locals 3 sampleFirst) sampleFirst).consumed)
          0 = 0xff ∧
        sampleMarked.getD ((entry_locals 3 sampleFirst).tmp +
          (iconv_pass latinEnv 1 sampleMarked (entry_locals 3 sampleFirst) sampleFirst).consumed
          + 1) 0 = 0xf9 ∧
        translate_step latinEnv dwlibConfig 1 sampleMarked (entry_locals 3 sampleFirst)
            sampleFirst =
          .again
            { len := (entry_locals 3 sampleFirst).len -
                (iconv_pass latinEnv 1 sampleMarked (entry_locals 3 sampleFirst)
                  sampleFirst).consumed - 2
              tmp := (entry_locals 3 sampleFirst).tmp +
                (iconv_pass latinEnv 1 sampleMarked (entry_locals 3 sampleFirst)
                  sampleFirst).consumed + 2
              tmp2 := (entry_locals 3 sampleFirst).tmp2 +
                (iconv_pass latinEnv 1 sampleMarked (entry_locals 3 sampleFirst)
                  sampleFirst).produced.length
              len2 := (entry_locals 3 sampleFirst).len2 -
                (iconv_pass latinEnv 1 sampleMarked (entry_locals 3 sampleFirst)
                  sampleFirst).produced.length }
            (after_pass latinEnv 1 sampleMarked (entry_locals 3 sampleFirst) sampleFirst)) ∨
      (¬ marker_next dwlibConfig sampleMarked (entry_locals 3 sampleFirst)
          (iconv_pass latinEnv 1 sampleMarked (entry_locals 3 sampleFirst) sampleFirst).consumed ∧
        (after_pass latinEnv 1 sampleMarked (entry_locals 3 sampleFirst) sampleFirst).errno =
          E2BIG ∧
        translate_step latinEnv dwlibConfig 1 sampleMarked (entry_locals 3 sampleFirst)
            sampleFirst =
          .again { len := strlen sampleMarked + 1, tmp := 0, tmp2 := 0,
                   len2 := sampleFirst.reslen * 2 }
            { after_pass latinEnv 1 sampleMarked (entry_locals 3 sampleFirst) sampleFirst with
              errno := 0, res := some (latinEnv.DMALLOC (sampleFirst.reslen * 2)),
              reslen := sampleFirst.reslen * 2 }) ∨
      (¬ marker_next dwlibConfig sampleMarked (entry_locals 3 sampleFirst)
          (iconv_pass latinEnv 1 sampleMarked (entry_locals 3 sampleFirst) sampleFirst).consumed ∧
        (after_pass latinEnv 1 sampleMarked (entry_locals 3 sampleFirst) sampleFirst).errno ≠
          E2BIG ∧
        ∃ r, translate_step latinEnv dwlibConfig 1 sampleMarked (entry_locals 3 sampleFirst)
            sampleFirst = .done r ∧ r.g.reslen = sampleFirst.reslen ∧
          r.g.iconv_calls = sampleFirst.iconv_calls + 1) :=
  marker_skip_spec latinEnv dwlibConfig 1 sampleMarked (entry_locals 3 sampleFirst) sampleFirst
    (by decide)

/-! ## The capacity of the shared buffer -/

theorem translate_step_reslen {W : Type} (E : Env W) (cfg : Config) (tr : iconv_t)
    (mes : List Byte) (l : Locals) (g : Globals W) :
    (∀ r, translate_step E cfg tr mes l g = .done r →
        r.g.reslen = g.reslen ∧ (g.res.isSome → r.g.res.isSome)) ∧
      ∀ l1 g1, translate_step E cfg tr mes l g = .again l1 g1 →
        g1.res.isSome ∧
          (g1.reslen = g.reslen ∨
            (g1.reslen = g.reslen * 2 ∧ l.len ≠ 0 ∧
              (after_pass E tr mes l g).errno = E2BIG)) := by
  constructor
  · intro r hr
    simp only [translate_step] at hr
    split_ifs at hr <;> cases hr
    · exact ⟨rfl, fun h => h⟩
    · exact ⟨rfl, fun _ => rfl⟩
  · intro l1 g1 hs
    simp only [translate_step] at hs
    split_ifs at hs with h1 h2 h3 <;> cases hs
    · exact ⟨rfl, Or.inl rfl⟩
    · exact ⟨rfl, Or.inr ⟨rfl, h1, h3⟩⟩

theorem translate_loop_reslen {W : Type} (E : Env W) (cfg : Config) (tr : iconv_t)
    (mes : List Byte) (fuel : Nat) (l : Locals) (g : Globals W) (r : TranslateResult W)
    (h : translate_loop E cfg tr mes fuel l g = some r) :
    (g.res.isSome → r.g.res.isSome) ∧ ∃ k, r.g.reslen = g.reslen * 2 ^ k := by
  induction fuel generalizing l g with
  | zero => simp [translate_loop] at h
  | succ n ih =>
    rw [translate_loop_succ] at h
    have hs := translate_step_reslen E cfg tr mes l g
    cases hstep : translate_step E cfg tr mes l g with
    | done r1 =>
      simp only [hstep, Option.some.injEq] at h
      subst h
      exact ⟨(hs.1 r1 hstep).2, 0, by simp [(hs.1 r1 hstep).1]⟩
    | again l1 g1 =>
      simp only [hstep] at h
      obtain ⟨h1, k, hk⟩ := ih l1 g1 h
      obtain ⟨h2, h3⟩ := hs.2 l1 g1 hstep
      refine ⟨fun _ => h1 h2, ?_⟩
      rcases h3 with h3 | ⟨h3, _⟩
      · exact ⟨k, by rw [hk, h3]⟩
      · exact ⟨k + 1, by rw [hk, h3, pow_succ]; ring⟩

theorem translate_reslen {W : Type} (E : Env W) (cfg : Config) (fuel : Nat) (tr : iconv_t)
    (mes : List Byte) (inlen : Nat) (g : Globals W) (r : TranslateResult W)
    (h : translate E cfg fuel tr mes inlen g = some r) :
    (r.g.res = g.res ∧ r.g.reslen = g.reslen) ∨
      (r.g.res.isSome ∧ ∃ k, r.g.reslen = start_capacity g * 2 ^ k) := by
  by_cases htr : tr = 0
  · left
    simp only [translate, htr, if_true, Option.some.injEq] at h
    subst h
    exact ⟨rfl, rfl⟩
  · right
    rw [translate_eq_loop E cfg fuel tr mes inlen g htr] at h
    obtain ⟨h1, k, hk⟩ := translate_loop_reslen E cfg tr mes fuel _ _ r h
    have h2 : (translate_entry E g).res.isSome ∧
        (translate_entry E g).reslen = start_capacity g := by
      simp only [translate_entry, start_capacity]
      split_ifs with hn
      · exact ⟨rfl, rfl⟩
      · exact ⟨by
          cases hres : g.res with
          | none => simp [hres] at hn
          | some b => rfl, rfl⟩
    exact ⟨h1 h2.1, k, by rw [hk, h2.2]⟩

theorem get_translator_res {W : Type} (E : Env W) (cfg : Config) (encoding : List Byte)
    (g : Globals W) :
    (get_translator E cfg encoding g).2.res = g.res ∧
      (get_translator E cfg encoding g).2.reslen = g.reslen := by
  cases hf : find_translator g.head encoding with
  | some t => rw [get_translator_hit E cfg encoding g t hf]; exact ⟨rfl, rfl⟩
  | none =>
    rw [get_translator_miss E cfg encoding g hf]
    simp only []
    split_ifs <;> exact ⟨rfl, rfl⟩

theorem exec_reslen {W : Type} (E : Env W) (cfg : Config) (c : Call) (g g1 : Globals W)
    (h : c.exec E cfg g = some g1) :
    (g1.res = g.res ∧ g1.reslen = g.reslen) ∨
      (g1.res.isSome ∧ ∃ k, g1.reslen = start_capacity g * 2 ^ k) := by
  cases c with
  | get_translator encoding =>
    simp only [Call.exec, Option.some.injEq] at h
    subst h
    exact Or.inl (get_translator_res E cfg encoding g)
  | translate fuel tr mes inlen =>
    simp only [Call.exec, Option.map_eq_some'] at h
    obtain ⟨r, hr, rfl⟩ := h
    exact translate_reslen E cfg fuel tr mes inlen g r hr
  | translate_easy fuel tr mes =>
    simp only [Call.exec, Option.map_eq_some', translate_easy] at h
    obtain ⟨r, hr, rfl⟩ := h
    split_ifs at hr with h0
    · cases hr
      exact Or.inl ⟨rfl, rfl⟩
    · cases ht : translate E cfg fuel tr mes (strlen mes + 1) g with
      | none => simp [ht] at hr
      | some r2 =>
        simp only [ht, Option.some.injEq] at hr
        subst hr
        exact translate_reslen E cfg fuel tr mes _ g r2 ht
  | set_errno e =>
    simp only [Call.exec, Option.some.injEq] at h
    subst h
    exact Or.inl ⟨rfl, rfl⟩

theorem exec_capacityOk {W : Type} (E : Env W) (cfg : Config) (c : Call)
    (g g1 : Globals W) (hg : CapacityOk g) (h : c.exec E cfg g = some g1) :
    CapacityOk g1 ∧ g.reslen ≤ g1.reslen := by
  rcases exec_reslen E cfg c g g1 h with ⟨h1, h2⟩ | ⟨h1, k, hk⟩
  · refine ⟨?_, by omega⟩
    unfold CapacityOk
    rw [h1, h2]
    exact hg
  · rcases hg with ⟨hr, hz⟩ | ⟨hr, j, hj⟩
    · exact ⟨Or.inr ⟨h1, k, by simp [hk, start_capacity, hr]⟩, by omega⟩
    · have hn : g.res.isNone = false := by
        cases hres : g.res with
        | none => simp [hres] at hr
        | some b => rfl
      have hk2 : g1.reslen = g.reslen * 2 ^ k := by simp [hk, start_capacity, hn]
      refine ⟨Or.inr ⟨h1, j + k, by rw [hk2, hj, pow_add]⟩, ?_⟩
      rw [hk2]
      exact Nat.le_mul_of_pos_right _ (by positivity)

theorem run_capacityOk {W : Type} (E : Env W) (cfg : Config) (calls : List Call)
    (g g1 : Globals W) (hg : CapacityOk g) (h : run E cfg calls g = some g1) :
    CapacityOk g1 := by
  induction calls generalizing g with
  | nil =>
    simp only [run, Option.some.injEq] at h
    subst h
    exact hg
  | cons c cs ih =>
    simp only [run] at h
    cases hc : c.exec E cfg g with
    | none => simp [hc] at h
    | some g2 =>
      simp only [hc] at h
      exact ih g2 (exec_capacityOk E cfg c g g2 hg hc).1 h

/-- C13, the code at the failing input: the loop discards the result of
`iconv` and tests `errno`, which only the restart branch clears, so the
capacity also doubles after a pass that reported success.  In the build with
marker recovery the call `translate(1, "A" 0xff 0xf9, 3)` of the single-byte
codec ends with `errno` equal to E2BIG and a buffer of one byte; in the next
call, `translate(1, "A", 1)`, the first pass converts the byte into the one
free byte and reports no error, and the loop doubles the buffer to 2 bytes
all the same.  In any build the same happens on the first call when `errno`
holds E2BIG on entry: no pass reports E2BIG and the buffer has 2 bytes
afterwards, while with `errno` 0 the same call leaves it at 1 byte. -/
theorem capacity_doubles_after_success :
    (translate latinEnv dwlibConfig 2 1 sampleMarkedText 3 initialGlobals).map
        (fun r => (r.g.res, r.g.reslen, r.g.errno, r.g.iconv_calls)) =
        some (sampleStale.res, 1, E2BIG, 1) ∧
      (iconv_pass latinEnv 1 sampleA (entry_locals 1 sampleStale) sampleStale).err = none ∧
      (iconv_pass latinEnv 1 sampleA (entry_locals 1 sampleStale) sampleStale).produced =
        [0x41] ∧
      translate_step latinEnv dwlibConfig 1 sampleA (entry_locals 1 sampleStale) sampleStale =
        .again { len := 2, tmp := 0, tmp2 := 0, len2 := 2 }
          { sampleStale with
            res := some (List.replicate 2 0xaa), reslen := 2, errno := 0, iconv_calls := 2 } ∧
      (run latinEnv dwlibConfig [.translate 2 1 sampleMarkedText 3, .translate 3 1 sampleA 1]
        initialGlobals).map (fun g => (g.reslen, g.iconv_calls)) = some (2, 3) ∧
      (iconv_pass latinEnv 1 sampleA (entry_locals 1 sampleFirst)
        { sampleFirst with errno := E2BIG }).err = none ∧
      (iconv_pass latinEnv 1 sampleA { len := 2, tmp := 0, tmp2 := 0, len2 := 2 }
        { sampleFirst with res := some (List.replicate 2 0xaa), reslen := 2 }).err = none ∧
      (translate latinEnv sampleConfig 3 1 sampleA 1 { initialGlobals with errno := E2BIG }).map
        (fun r => (r.g.reslen, r.g.iconv_calls)) = some (2, 2) ∧
      (translate latinEnv sampleConfig 3 1 sampleA 1 initialGlobals).map
        (fun r => (r.g.reslen, r.g.iconv_calls)) = some (1, 1) := by
  refine ⟨by decide, by decide, by decide, by rfl, by decide, by decide, by decide, by decide,
    by decide⟩

/-- The invariant of the capacity.  In every state reached from the initial
statics (no buffer, `reslen` 0) by any sequence of calls, the buffer is either
not allocated yet or its capacity is a power of two, hence at least 1.  A
further call never lowers `reslen`: it leaves the statics alone, or it ends
with an allocated buffer whose capacity is the starting capacity (1 if this
call allocates the buffer) times a power of two.  Within a call the capacity
changes only at a restart of the loop, where it is multiplied by exactly 2. -/
theorem capacity_power_of_two {W : Type} (E : Env W) (cfg : Config) (calls : List Call)
    (g g1 g2 : Globals W) (c : Call)
    (h0 : g.res = none ∧ g.reslen = 0)
    (hrun : run E cfg calls g = some g1) (hexec : c.exec E cfg g1 = some g2) :
    ((g1.res = none ∧ g1.reslen = 0) ∨ (g1.res.isSome = true ∧ ∃ k, g1.reslen = 2 ^ k)) ∧
      g1.reslen ≤ g2.reslen ∧
      ((g2.res = g1.res ∧ g2.reslen = g1.reslen) ∨
        (g2.res.isSome = true ∧ ∃ k, g2.reslen = start_capacity g1 * 2 ^ k)) ∧
      (∀ (tr : iconv_t) (mes : List Byte) (l l1 : Locals) (gx gy : Globals W),
        translate_step E cfg tr mes l gx = .again l1 gy →
          gy.reslen = gx.reslen ∨
            (gy.reslen = gx.reslen * 2 ∧ l.len ≠ 0 ∧
              (after_pass E tr mes l gx).errno = E2BIG)) ∧
      ∀ (tr : iconv_t) (mes : List Byte) (l : Locals) (gx : Globals W)
        (r : TranslateResult W),
        translate_step E cfg tr mes l gx = .done r → r.g.reslen = gx.reslen := by
  have hok : CapacityOk g1 := run_capacityOk E cfg calls g g1 (Or.inl h0) hrun
  refine ⟨hok, (exec_capacityOk E cfg c g1 g2 hok hexec).2, exec_reslen E cfg c g1 g2 hexec,
    ?_, ?_⟩
  · intro tr mes l l1 gx gy hs
    exact ((translate_step_reslen E cfg tr mes l gx).2 l1 gy hs).2
  · intro tr mes l gx r hs
    exact ((translate_step_reslen E cfg tr mes l gx).1 r hs).1

theorem capacity_power_of_two_witness :
    ((sampleStale.res = none ∧ sampleStale.reslen = 0) ∨
        (sampleStale.res.isSome = true ∧ ∃ k, sampleStale.reslen = 2 ^ k)) ∧
      sampleStale.reslen ≤ sampleGrown.reslen ∧
      ((sampleGrown.res = sampleStale.res ∧ sampleGrown.reslen = sampleStale.reslen) ∨
        (sampleGrown.res.isSome = true ∧
          ∃ k, sampleGrown.reslen = start_capacity sampleStale * 2 ^ k)) ∧
      ((sampleRestarted.reslen = sampleFirst.reslen ∨
        (sampleRestarted.reslen = sampleFirst.reslen * 2 ∧
          (entry_locals 12 sampleFirst).len ≠ 0 ∧
          (after_pass sampleEnv 1 sampleUnits (entry_locals 12 sampleFirst)
            sampleFirst).errno = E2BIG))) :=
  ⟨(capacity_power_of_two latinEnv dwlibConfig [.translate 2 1 sampleMarkedText 3]
      initialGlobals sampleStale sampleGrown (.translate 3 1 sampleA 1)
      ⟨rfl, rfl⟩ (by rfl) (by rfl)).1,
    (capacity_power_of_two latinEnv dwlibConfig [.translate 2 1 sampleMarkedText 3]
      initialGlobals sampleStale sampleGrown (.translate 3 1 sampleA 1)
      ⟨rfl, rfl⟩ (by rfl) (by rfl)).2.1,
    (capacity_power_of_two latinEnv dwlibConfig [.translate 2 1 sampleMarkedText 3]
      initialGlobals sampleStale sampleGrown (.translate 3 1 sampleA 1)
      ⟨rfl, rfl⟩ (by rfl) (by rfl)).2.2.1,
    (capacity_power_of_two sampleEnv sampleConfig [] initialGlobals initialGlobals
      initialGlobals (.set_errno 0) ⟨rfl, rfl⟩ (by rfl) (by rfl)).2.2.2.1 1 sampleUnits
      (entry_locals 12 sampleFirst) { len := 2, tmp := 0, tmp2 := 0, len2 := 2 }
      sampleFirst sampleRestarted (by rfl)⟩

/-! ## Round trip and terminator on concrete inputs -/

/-- C14, the code at the failing input: the translator of the 32-bit sample
encoding, whose two conversions are inverse to each other on the 12 bytes
that `f_arr_to_str` builds for `({ 65, 66 })` (`sample_conv` gives "AB" and a
zero byte, `sample_widen` gives the 12 bytes back).  With a buffer of 16
bytes the round trip returns the 12 bytes.  On the first call, where the
buffer has 1 byte, the incoming conversion restarts with
`len = strlen(mes) + 1 = 2` and returns length 0, so the round trip returns
length 0 and no bytes. -/
theorem roundtrip_restart_truncates :
    sample_conv sampleUnits 16 = (12, [0x41, 0x42, 0], none) ∧
      sample_widen [0x41, 0x42, 0] 16 = (3, sampleUnits, none) ∧
      (roundtrip duplexEnv sampleConfig 3 sampleUTF32 sampleUnits 12 sampleRoomy).map
        (fun r => (r.outlen, (r.deref sampleUnits).take r.outlen)) = some (12, sampleUnits) ∧
      (roundtrip duplexEnv sampleConfig 3 sampleUTF32 sampleUnits 12 initialGlobals).map
        (fun r => (r.outlen, (r.deref sampleUnits).take r.outlen)) = some (0, []) ∧
      (translate duplexEnv sampleConfig 3 sampleUTF32.incoming sampleUnits 12
        initialGlobals).map (fun r => (r.outlen, r.g.reslen, r.g.iconv_calls)) =
        some (0, 2, 2) := by
  refine ⟨by decide, by decide, by decide, by decide, by decide⟩

/-- C18, the code at the failing input: when the bytes of the last pass fill
the buffer, the store `tmp2[0] = 0` is at offset `reslen`, one past the end of
the block.  The first call `translate(1, in, 4)` with the 4 zero bytes that
`f_arr_to_str` builds for the empty array: the one byte produced fills the
buffer of one byte, the length returned is 1, equal to the capacity, and the
store is outside.  The first call of `translate_easy` for the text "A" with
the single-byte codec: after one restart the two bytes produced fill the
buffer of two bytes. -/
theorem terminator_past_end :
    (translate sampleEnv sampleConfig 1 1 [0, 0, 0, 0] 4 initialGlobals).map
        (fun r => (r.outlen, r.g.reslen, r.overrun, r.g.res)) =
        some (1, 1, true, some [0]) ∧
      (translate latinEnv sampleConfig 2 1 [0x41, 0] (strlen [0x41, 0] + 1)
        initialGlobals).map (fun r => (r.outlen, r.g.reslen, r.overrun, r.g.res)) =
        some (2, 2, true, some [0x41, 0]) := by
  refine ⟨by decide, by decide⟩

/-! ## The efuns -/

/-- C15: on a stack whose top is the encoding name and whose next value is the
text, let `get_translator` give `newt` and the state `g1`.  If `newt` is null
both efuns raise "unknown encoding" (with the name popped), and they raise it
in no other case.  If `newt` is a translator, `f_to_default_encoding` hands
the text to `translate_easy` with `newt->incoming` and
`f_default_encoding_to` with `newt->outgoing`; when that returns, the two
arguments have been replaced by one string, the C string at the pointer
returned. -/
theorem default_encoding_spec {W : Type} (E : Env W) (cfg : Config) (fuel : Nat)
    (encoding text : List Byte) (sp : List svalue) (g g1 : Globals W)
    (newt : Option translation)
    (hget : get_translator E cfg (string_ptr encoding) g = (newt, g1)) :
    (newt = none →
        f_to_default_encoding E cfg fuel (.string encoding :: .string text :: sp) g =
          .raised unknown_encoding (.string text :: sp) g1 ∧
        f_default_encoding_to E cfg fuel (.string encoding :: .string text :: sp) g =
          .raised unknown_encoding (.string text :: sp) g1) ∧
      (∀ t : translation, newt = some t →
        f_to_default_encoding E cfg fuel (.string encoding :: .string text :: sp) g =
          (match translate_easy E cfg fuel t.incoming (string_ptr text) g1 with
           | none => .out_of_fuel
           | some (p, g2) => .returned (.string (cstr (p.bytes (string_ptr text) g2)) :: sp) g2) ∧
        f_default_encoding_to E cfg fuel (.string encoding :: .string text :: sp) g =
          (match translate_easy E cfg fuel t.outgoing (string_ptr text) g1 with
           | none => .out_of_fuel
           | some (p, g2) =>
             .returned (.string (cstr (p.bytes (string_ptr text) g2)) :: sp) g2)) ∧
      ((∃ msg sp1 g2, f_to_default_encoding E cfg fuel
          (.string encoding :: .string text :: sp) g = .raised msg sp1 g2) ↔ newt = none) ∧
      ((∃ msg sp1 g2, f_default_encoding_to E cfg fuel
          (.string encoding :: .string text :: sp) g = .raised msg sp1 g2) ↔ newt = none) := by
  cases newt with
  | none =>
    have h1 : f_to_default_encoding E cfg fuel (.string encoding :: .string text :: sp) g =
        .raised unknown_encoding (.string text :: sp) g1 := by
      simp only [f_to_default_encoding, default_encoding_body, hget]
    have h2 : f_default_encoding_to E cfg fuel (.string encoding :: .string text :: sp) g =
        .raised unknown_encoding (.string text :: sp) g1 := by
      simp only [f_default_encoding_to, default_encoding_body, hget]
    refine ⟨fun _ => ⟨h1, h2⟩, fun t ht => Option.noConfusion ht, ?_, ?_⟩
    · exact ⟨fun _ => rfl, fun _ => ⟨_, _, _, h1⟩⟩
    · exact ⟨fun _ => rfl, fun _ => ⟨_, _, _, h2⟩⟩
  | some t0 =>
    have h1 : f_to_default_encoding E cfg fuel (.string encoding :: .string text :: sp) g =
        (match translate_easy E cfg fuel t0.incoming (string_ptr text) g1 with
         | none => .out_of_fuel
         | some (p, g2) =>
           .returned (.string (cstr (p.bytes (string_ptr text) g2)) :: sp) g2) := by
      simp only [f_to_default_encoding, default_encoding_body, hget, copy_and_push_string]
    have h2 : f_default_encoding_to E cfg fuel (.string encoding :: .string text :: sp) g =
        (match translate_easy E cfg fuel t0.outgoing (string_ptr text) g1 with
         | none => .out_of_fuel
         | some (p, g2) =>
           .returned (.string (cstr (p.bytes (string_ptr text) g2)) :: sp) g2) := by
      simp only [f_default_encoding_to, default_encoding_body, hget, copy_and_push_string]
    refine ⟨fun h => Option.noConfusion h, fun t ht => ?_, ?_, ?_⟩
    · cases ht
      exact ⟨h1, h2⟩
    · constructor
      · rintro ⟨msg, sp1, g2, h⟩
        rw [h1] at h
        cases hte : translate_easy E cfg fuel t0.incoming (string_ptr text) g1 <;>
          simp [hte] at h
      · intro h
        cases h
    · constructor
      · rintro ⟨msg, sp1, g2, h⟩
        rw [h2] at h
        cases hte : translate_easy E cfg fuel t0.outgoing (string_ptr text) g1 <;>
          simp [hte] at h
      · intro h
        cases h

theorem default_encoding_spec_witness :
    (f_to_default_encoding sampleEnv sampleConfig 3
          [.string sampleUnknown, .string sampleText] initialGlobals =
        .raised unknown_encoding [.string sampleText] sampleFailed ∧
      f_default_encoding_to sampleEnv sampleConfig 3
          [.string sampleUnknown, .string sampleText] initialGlobals =
        .raised unknown_encoding [.string sampleText] sampleFailed) ∧
      (f_to_default_encoding latinEnv sampleConfig 3
          [.string UTF32, .string sampleText] initialGlobals =
        (match translate_easy latinEnv sampleConfig 3 sampleUTF32.incoming
            (string_ptr sampleText) sampleRegistered with
         | none => .out_of_fuel
         | some (p, g2) =>
           .returned (.string (cstr (p.bytes (string_ptr sampleText) g2)) :: []) g2) ∧
      f_default_encoding_to latinEnv sampleConfig 3
          [.string UTF32, .string sampleText] initialGlobals =
        (match translate_easy latinEnv sampleConfig 3 sampleUTF32.outgoing
            (string_ptr sampleText) sampleRegistered with
         | none => .out_of_fuel
         | some (p, g2) =>
           .returned (.string (cstr (p.bytes (string_ptr sampleText) g2)) :: []) g2)) :=
  ⟨(default_encoding_spec sampleEnv sampleConfig 3 sampleUnknown sampleText [] initialGlobals
      sampleFailed none (by rfl)).1 rfl,
    (default_encoding_spec latinEnv sampleConfig 3 UTF32 sampleText [] initialGlobals
      sampleRegistered (some sampleUTF32) (by rfl)).2.1 sampleUTF32 rfl⟩

/-- C20: let `ob` be the object `f_set_encoding` works on (the object argument
when there are two arguments, `current_object` otherwise) and let the name be
the string argument.  If `ob` is interactive and `get_translator` returns a
translator, the translator of the connection of `ob` becomes that translator,
nothing else in the object table changes, and the name stays on the stack as
the result.  If `ob` is interactive and `get_translator` returns null, or if
`ob` is not interactive, the object table is unchanged and the result is the
number 0; when `ob` is not interactive `get_translator` is not called and the
state of the file is unchanged. -/
theorem set_encoding_spec {W : Type} (E : Env W) (cfg : Config) (st_num_arg : Nat)
    (obs : Objects) (ob : Nat) (encoding : List Byte) (rest sp : List svalue)
    (g : Globals W)
    (hsp : (st_num_arg = 2 ∧ sp = .object ob :: .string encoding :: rest) ∨
      (st_num_arg ≠ 2 ∧ sp = .string encoding :: rest ∧ ob = obs.current_object)) :
    (∀ (ip : interactive_t) (newt : translation) (g1 : Globals W),
        (obs.table ob).interactive = some ip →
        get_translator E cfg (string_ptr encoding) g = (some newt, g1) →
        f_set_encoding E cfg st_num_arg obs sp g =
          some ({ obs with
                  table := Function.update obs.table ob
                    { interactive := some { ip with trans := some newt } } },
                .string encoding :: rest, g1)) ∧
      (∀ (ip : interactive_t) (g1 : Globals W),
        (obs.table ob).interactive = some ip →
        get_translator E cfg (string_ptr encoding) g = (none, g1) →
        f_set_encoding E cfg st_num_arg obs sp g = some (obs, .number 0 :: rest, g1)) ∧
      ((obs.table ob).interactive = none →
        f_set_encoding E cfg st_num_arg obs sp g = some (obs, .number 0 :: rest, g)) := by
  rcases hsp with ⟨h2, rfl⟩ | ⟨h2, rfl, rfl⟩
  · refine ⟨fun ip newt g1 hi hg => ?_, fun ip g1 hi hg => ?_, fun hi => ?_⟩
    · simp [f_set_encoding, h2, pop_stack, hi, hg]
    · simp [f_set_encoding, h2, pop_stack, push_number, hi, hg]
    · simp [f_set_encoding, h2, pop_stack, push_number, hi]
  · refine ⟨fun ip newt g1 hi hg => ?_, fun ip g1 hi hg => ?_, fun hi => ?_⟩
    · simp [f_set_encoding, h2, hi, hg]
    · simp [f_set_encoding, h2, pop_stack, push_number, hi, hg]
    · simp [f_set_encoding, h2, pop_stack, push_number, hi]

theorem set_encoding_spec_witness :
    f_set_encoding sampleEnv sampleConfig 2 sampleObjects [.object 5, .string UTF32]
        initialGlobals =
        some ({ sampleObjects with
                table := Function.update sampleObjects.table 5
                  { interactive := some { trans := some sampleUTF32 } } },
              .string UTF32 :: [], sampleRegistered) ∧
      f_set_encoding sampleEnv sampleConfig 1 sampleObjects [.string sampleUnknown]
        initialGlobals = some (sampleObjects, .number 0 :: [], sampleFailed) ∧
      f_set_encoding sampleEnv sampleConfig 2 sampleObjects [.object 7, .string UTF32]
        initialGlobals = some (sampleObjects, .number 0 :: [], initialGlobals) :=
  ⟨(set_encoding_spec sampleEnv sampleConfig 2 sampleObjects 5 UTF32 []
      [.object 5, .string UTF32] initialGlobals (Or.inl ⟨rfl, rfl⟩)).1
      { trans := none } sampleUTF32 sampleRegistered (by rfl) (by rfl),
    (set_encoding_spec sampleEnv sampleConfig 1 sampleObjects 5 sampleUnknown []
      [.string sampleUnknown] initialGlobals (Or.inr ⟨by decide, rfl, rfl⟩)).2.1
      { trans := none } sampleFailed (by rfl) (by rfl),
    (set_encoding_spec sampleEnv sampleConfig 2 sampleObjects 7 UTF32 []
      [.object 7, .string UTF32] initialGlobals (Or.inl ⟨rfl, rfl⟩)).2.2 (by rfl)⟩

/-! ## The width of encoded text -/

theorem f_strwidth_eq_countP (char_signed : Bool) (s : List Byte) (sp : List svalue) :
    f_strwidth char_signed (.string s :: sp) =
      some (.number (s.countP (fun b => decide (b.val &&& 0xc0 ≠ 0x80)) : Nat) :: sp) := by
  have h1 : (List.range s.length).foldl (strwidth_step char_signed s) 0 =
      ((List.range s.length).map (fun i => s.getD i 0)).foldl
        (fun w b => w + (if int_and (char_to_int char_signed b) 0xc0 = 0x80 then 0 else 1))
        0 := by
    rw [List.foldl_map]
    rfl
  simp only [f_strwidth, push_number, pop_stack, List.tail_cons, h1, range_map_getD,
    foldl_width, zero_add]

theorem utf8_ascii_byte : ∀ c : Fin 128,
    ((Fin.ofNat c.val : Byte).val &&& 0xc0 ≠ 0x80) := by
  set_option maxRecDepth 100000 in decide

theorem utf8_continuation_byte : ∀ y : Fin 64,
    ((Fin.ofNat (0x80 + y.val) : Byte).val &&& 0xc0 = 0x80) := by
  set_option maxRecDepth 100000 in decide

theorem utf8_lead2_byte : ∀ z : Fin 32,
    ((Fin.ofNat (0xc0 + z.val) : Byte).val &&& 0xc0 ≠ 0x80) := by
  set_option maxRecDepth 100000 in decide

theorem utf8_lead3_byte : ∀ z : Fin 16,
    ((Fin.ofNat (0xe0 + z.val) : Byte).val &&& 0xc0 ≠ 0x80) := by
  set_option maxRecDepth 100000 in decide

theorem utf8_lead4_byte : ∀ z : Fin 8,
    ((Fin.ofNat (0xf0 + z.val) : Byte).val &&& 0xc0 ≠ 0x80) := by
  set_option maxRecDepth 100000 in decide

theorem utf8_encode_count (c : Nat) (hc : c < 0x110000) :
    (utf8_encode c).countP (fun b => decide (b.val &&& 0xc0 ≠ 0x80)) = 1 := by
  have hcont : ∀ x : Nat,
      ((Fin.ofNat (0x80 + x % 64) : Byte).val &&& 0xc0 = 0x80) :=
    fun x => utf8_continuation_byte ⟨x % 64, Nat.mod_lt _ (by decide)⟩
  unfold utf8_encode
  split_ifs with h1 h2 h3
  · have := utf8_ascii_byte ⟨c, h1⟩
    simp [List.countP_cons, this]
  · have := utf8_lead2_byte ⟨c / 64, by omega⟩
    have h5 := hcont c
    simp only [List.countP_cons, List.countP_nil]
    simp [this, h5]
  · have := utf8_lead3_byte ⟨c / 4096, by omega⟩
    have h5 := hcont c
    have h6 := hcont (c / 64)
    simp only [List.countP_cons, List.countP_nil]
    simp [this, h5, h6]
  · have := utf8_lead4_byte ⟨c / 262144, by omega⟩
    have h5 := hcont c
    have h6 := hcont (c / 64)
    have h7 := hcont (c / 4096)
    simp only [List.countP_cons, List.countP_nil]
    simp [this, h5, h6, h7]

theorem char_toNat_lt (c : Char) : c.toNat < 0x110000 := by
  have := c.valid
  simp [Char.toNat, UInt32.isValidChar, Nat.isValidChar] at *
  omega

theorem utf8_string_count (cs : List Char) :
    (utf8_string cs).countP (fun b => decide (b.val &&& 0xc0 ≠ 0x80)) = cs.length := by
  induction cs with
  | nil => rfl
  | cons c cs ih =>
    have h : utf8_string (c :: cs) = utf8_encode c.toNat ++ utf8_string cs := by
      simp [utf8_string, List.flatMap_cons]
    rw [h, List.countP_append, ih, utf8_encode_count c.toNat (char_toNat_lt c),
      List.length_cons]
    omega

/-- C19: for every list of Unicode scalar values, `f_strwidth` on the UTF-8
encoding of the list pushes the length of the list, every encoded character
holding exactly one byte that is not a continuation byte; and for every
string whatever, the number pushed is at most the length of the string. -/
theorem f_strwidth_utf8 (char_signed : Bool) (cs : List Char) (s : List Byte)
    (sp : List svalue) :
    f_strwidth char_signed (.string (utf8_string cs) :: sp) =
        some (.number (cs.length : Nat) :: sp) ∧
      (∃ n : Nat, f_strwidth char_signed (.string s :: sp) = some (.number (n : Nat) :: sp) ∧
        n ≤ s.length) ∧
      utf8_string [Char.ofNat 0x41, Char.ofNat 0xe9, Char.ofNat 0x4f60, Char.ofNat 0x1f600] =
        [0x41, 0xc3, 0xa9, 0xe4, 0xbd, 0xa0, 0xf0, 0x9f, 0x98, 0x80] := by
  refine ⟨?_, ⟨_, f_strwidth_eq_countP char_signed s sp, List.countP_le_length _⟩, by decide⟩
  rw [f_strwidth_eq_countP, utf8_string_count]

/-! ## Termination of the loop without marker recovery -/

theorem translate_loop_mono {W : Type} (E : Env W) (cfg : Config) (tr : iconv_t)
    (mes : List Byte) (n m : Nat) (l : Locals) (g : Globals W) (r : TranslateResult W)
    (h : translate_loop E cfg tr mes n l g = some r) :
    translate_loop E cfg tr mes (n + m) l g = some r := by
  induction n generalizing l g with
  | zero => simp [translate_loop] at h
  | succ n ih =>
    rw [show n + 1 + m = (n + m) + 1 by omega, translate_loop_succ]
    rw [translate_loop_succ] at h
    cases hs : translate_step E cfg tr mes l g with
    | done r1 =>
      simp only [hs] at h ⊢
      exact h
    | again l1 g1 =>
      simp only [hs] at h ⊢
      exact ih l1 g1 h

theorem translate_loop_of_le {W : Type} (E : Env W) (cfg : Config) (tr : iconv_t)
    (mes : List Byte) (n fuel : Nat) (l : Locals) (g : Globals W) (r : TranslateResult W)
    (h : translate_loop E cfg tr mes n l g = some r) (hle : n ≤ fuel) :
    translate_loop E cfg tr mes fuel l g = some r := by
  have := translate_loop_mono E cfg tr mes n (fuel - n) l g r h
  rwa [show n + (fuel - n) = fuel by omega] at this

theorem not_marker_next {W : Type} (E : Env W) (cfg : Config) (tr : iconv_t)
    (mes : List Byte) (l : Locals) (g : Globals W) (hcfg : cfg.PACKAGE_DWLIB = false) :
    ¬ marker_next cfg mes l (iconv_pass E tr mes l g).consumed := by
  simp [marker_next, hcfg]

/-- The iteration that ends in a restart: the loop goes on at the first input
byte with `strlen(mes) + 1` bytes and a fresh buffer of twice the size. -/
theorem translate_step_restart {W : Type} (E : Env W) (cfg : Config) (tr : iconv_t)
    (mes : List Byte) (l : Locals) (g : Globals W)
    (hlen : l.len ≠ 0) (hm : ¬ marker_next cfg mes l (iconv_pass E tr mes l g).consumed)
    (herr : (after_pass E tr mes l g).errno = E2BIG) :
    translate_step E cfg tr mes l g =
      .again { len := strlen mes + 1, tmp := 0, tmp2 := 0, len2 := g.reslen * 2 }
        { after_pass E tr mes l g with
          errno := 0, res := some (E.DMALLOC (g.reslen * 2)), reslen := g.reslen * 2 } := by
  simp only [translate_step, hlen, hm, herr, if_true, if_false]
  rfl

theorem after_pass_errno {W : Type} (E : Env W) (tr : iconv_t) (mes : List Byte)
    (l : Locals) (g : Globals W) :
    (after_pass E tr mes l g).errno = (iconv_pass E tr mes l g).err.getD g.errno := rfl

/-- When `errno` was not E2BIG before the call, it is E2BIG after the call
exactly when the call reported E2BIG. -/
theorem errno_e2big_iff {W : Type} (E : Env W) (tr : iconv_t) (mes : List Byte)
    (l : Locals) (g : Globals W) (hg : g.errno ≠ E2BIG) :
    (after_pass E tr mes l g).errno = E2BIG ↔ (iconv_pass E tr mes l g).err = some E2BIG := by
  rw [after_pass_errno]
  cases h : (iconv_pass E tr mes l g).err with
  | none => simp [hg]
  | some e => simp

theorem loop_terminates {W : Type} (E : Env W) (cfg : Config) (tr : iconv_t)
    (mes : List Byte) (N : Nat) (hcfg : cfg.PACKAGE_DWLIB = false)
    (hN : ∀ (w : W) (n avail : Nat), N ≤ avail →
      (E.iconv w tr (mes.take n) avail).err ≠ some E2BIG)
    (n : Nat) (l : Locals) (g : Globals W)
    (h1 : l.tmp = 0) (h2 : l.tmp2 = 0) (h3 : l.len2 = g.reslen) (hlen : l.len ≠ 0)
    (herrno : g.errno ≠ E2BIG) (hn : N ≤ g.reslen * 2 ^ n) :
    ∃ k r, k ≤ n ∧ translate_loop E cfg tr mes (k + 1) l g = some r ∧
      r.g.reslen = g.reslen * 2 ^ k ∧ r.g.iconv_calls = g.iconv_calls + k + 1 ∧
      (k = 0 ∨ g.reslen * 2 ^ (k - 1) < N) := by
  induction n generalizing l g with
  | zero =>
    have hm := not_marker_next E cfg tr mes l g hcfg
    have hp : (iconv_pass E tr mes l g).err ≠ some E2BIG := by
      have := hN g.world l.len l.len2 (by rw [h3]; simpa using hn)
      simpa [iconv_pass, h1] using this
    have he : (after_pass E tr mes l g).errno ≠ E2BIG :=
      fun h => hp ((errno_e2big_iff E tr mes l g herrno).1 h)
    obtain ⟨r, hr, _, hc, _, hres, _⟩ := translate_step_done E cfg tr mes l g hlen hm h2 h3 he
    exact ⟨0, r, le_refl _, by rw [translate_loop_succ, hr], by simp [hres], by rw [hc],
      Or.inl rfl⟩
  | succ n ih =>
    have hm := not_marker_next E cfg tr mes l g hcfg
    by_cases he : (after_pass E tr mes l g).errno = E2BIG
    · have hp := (errno_e2big_iff E tr mes l g herrno).1 he
      have hlt : g.reslen < N := by
        by_contra hge
        have := hN g.world l.len l.len2 (by rw [h3]; omega)
        apply this
        simpa [iconv_pass, h1] using hp
      have hs := translate_step_restart E cfg tr mes l g hlen hm he
      obtain ⟨k, r, hk, hr, hres, hc, hlast⟩ :=
        ih { len := strlen mes + 1, tmp := 0, tmp2 := 0, len2 := g.reslen * 2 }
          { after_pass E tr mes l g with
            errno := 0, res := some (E.DMALLOC (g.reslen * 2)), reslen := g.reslen * 2 }
          rfl rfl rfl (by simp) (show (0 : Nat) ≠ E2BIG by decide)
          (by
            show N ≤ g.reslen * 2 * 2 ^ n
            rw [pow_succ] at hn
            calc N ≤ g.reslen * (2 ^ n * 2) := hn
              _ = g.reslen * 2 * 2 ^ n := by ring)
      refine ⟨k + 1, r, by omega, ?_, ?_, ?_, Or.inr ?_⟩
      · rw [translate_loop_succ, hs]
        exact hr
      · rw [hres]
        show g.reslen * 2 * 2 ^ k = g.reslen * 2 ^ (k + 1)
        rw [pow_succ]
        ring
      · rw [hc]
        show g.iconv_calls + 1 + k + 1 = g.iconv_calls + (k + 1) + 1
        omega
      · rcases Nat.eq_zero_or_pos k with rfl | hk1
        · simpa using hlt
        · rcases hlast with h0 | hlast
          · omega
          · have : g.reslen * 2 * 2 ^ (k - 1) = g.reslen * 2 ^ (k + 1 - 1) := by
              rw [show k + 1 - 1 = (k - 1) + 1 by omega, pow_succ]
              ring
            rw [← this]
            exact hlast
    · obtain ⟨r, hr, _, hc, _, hres, _⟩ := translate_step_done E cfg tr mes l g hlen hm h2 h3 he
      exact ⟨0, r, Nat.zero_le _, by rw [translate_loop_succ, hr], by simp [hres], by rw [hc],
        Or.inl rfl⟩

theorem translate_entry_facts {W : Type} (E : Env W) (g : Globals W) :
    (translate_entry E g).reslen = start_capacity g ∧
      (translate_entry E g).errno = g.errno ∧
      (translate_entry E g).iconv_calls = g.iconv_calls ∧
      (translate_entry E g).world = g.world ∧
      (translate_entry E g).head = g.head := by
  simp only [translate_entry, start_capacity]
  split_ifs <;> exact ⟨rfl, rfl, rfl, rfl, rfl⟩

theorem restart_bounds (N c k : Nat) (hc : 1 ≤ c) (hlast : k = 0 ∨ c * 2 ^ (k - 1) < N) :
    k ≤ Nat.clog 2 ((max N c + c - 1) / c) ∧ c * 2 ^ k < 2 * max N c := by
  rcases Nat.eq_zero_or_pos k with rfl | hk
  · refine ⟨Nat.zero_le _, ?_⟩
    have : c ≤ max N c := le_max_right _ _
    simp
    omega
  · rcases hlast with h0 | hlast
    · omega
    · have hM : c * 2 ^ (k - 1) < max N c := lt_of_lt_of_le hlast (le_max_left _ _)
      constructor
      · have h1 : 2 ^ (k - 1) < (max N c + c - 1) / c := by
          have h2 : (2 ^ (k - 1) + 1) * c ≤ max N c + c - 1 := by
            have : (2 ^ (k - 1) + 1) * c = c * 2 ^ (k - 1) + c := by ring
            omega
          exact (Nat.le_div_iff_mul_le (by omega)).2 h2
        have h3 := (Nat.pow_lt_iff_lt_clog (by decide : 1 < 2)).1 h1
        omega
      · have : c * 2 ^ k = 2 * (c * 2 ^ (k - 1)) := by
          rw [show k = (k - 1) + 1 by omega, pow_succ]
          simp
          ring
        omega

theorem sampleUnits_no_overflow (w : Unit) (n avail : Nat) (h : 3 ≤ avail) :
    (sampleEnv.iconv w 1 (sampleUnits.take n) avail).err ≠ some E2BIG := by
  obtain ⟨a, rfl⟩ : ∃ a, avail = a + 3 := ⟨avail - 3, by omega⟩
  show (sample_conv (sampleUnits.take n) (a + 3)).2.2 ≠ some E2BIG
  rcases Nat.lt_or_ge n 12 with hn | hn
  · interval_cases n <;> simp +decide [sampleUnits, sample_conv, EINVAL, E2BIG]
  · rw [List.take_of_length_le (by simpa [sampleUnits] using hn)]
    simp +decide [sampleUnits, sample_conv, E2BIG]

/-- The bounds of the loop when `errno` is fresh.  In a build without marker
recovery, for a non-null handle, any input and a starting capacity `c` of at
least 1, if `errno` is not E2BIG when `translate` is called and the codec
reports no E2BIG whenever at least `N` bytes are free, then `translate`
returns (with any fuel above the number of its restarts), after `k` restarts
with `k ≤ ⌈log2 (max(N, c) / c)⌉`, with the capacity `c * 2 ^ k`, which is
less than `2 * max(N, c)`; it makes `k + 1` codec calls when the input is not
empty. -/
theorem translate_terminates {W : Type} (E : Env W) (cfg : Config) (tr : iconv_t)
    (mes : List Byte) (inlen : Nat) (g : Globals W) (N : Nat)
    (hcfg : cfg.PACKAGE_DWLIB = false) (htr : tr ≠ 0)
    (hcap : 1 ≤ start_capacity g) (herrno : g.errno ≠ E2BIG)
    (hN : ∀ (w : W) (n avail : Nat), N ≤ avail →
      (E.iconv w tr (mes.take n) avail).err ≠ some E2BIG) :
    ∃ (k : Nat) (r : TranslateResult W),
      (∀ fuel, k + 1 ≤ fuel → translate E cfg fuel tr mes inlen g = some r) ∧
      r.g.reslen = start_capacity g * 2 ^ k ∧
      r.g.iconv_calls = g.iconv_calls + (if inlen = 0 then 0 else k + 1) ∧
      k ≤ Nat.clog 2
        ((max N (start_capacity g) + start_capacity g - 1) / start_capacity g) ∧
      r.g.reslen < 2 * max N (start_capacity g) := by
  obtain ⟨hr0, he0, hc0, _, _⟩ := translate_entry_facts E g
  by_cases hz : inlen = 0
  · subst hz
    have hb := restart_bounds N (start_capacity g) 0 hcap (Or.inl rfl)
    refine ⟨0, { ret := .res, outlen := (translate_entry E g).reslen -
        (translate_entry E g).reslen, overrun := false, g := translate_entry E g }, ?_, ?_,
      ?_, hb.1, ?_⟩
    · intro fuel hf
      obtain ⟨f, rfl⟩ : ∃ f, fuel = f + 1 := ⟨fuel - 1, by omega⟩
      rw [translate_eq_loop E cfg _ tr mes 0 g htr, translate_loop_succ]
      simp [translate_step, entry_locals]
    · simp [hr0]
    · simp [hc0]
    · simpa [hr0] using hb.2
  · have hn : N ≤ (translate_entry E g).reslen * 2 ^ N := by
      rw [hr0]
      calc N ≤ 2 ^ N := (Nat.lt_two_pow N).le
        _ = 1 * 2 ^ N := by ring
        _ ≤ start_capacity g * 2 ^ N := Nat.mul_le_mul_right _ hcap
    obtain ⟨k, r, _, hr, hres, hc, hlast⟩ :=
      loop_terminates E cfg tr mes N hcfg hN N (entry_locals inlen (translate_entry E g))
        (translate_entry E g) rfl rfl rfl hz (by rw [he0]; exact herrno) hn
    rw [hr0] at hres hlast
    have hb := restart_bounds N (start_capacity g) k hcap hlast
    refine ⟨k, r, ?_, hres, ?_, hb.1, ?_⟩
    · intro fuel hf
      rw [translate_eq_loop E cfg _ tr mes inlen g htr]
      exact translate_loop_of_le E cfg tr mes (k + 1) fuel _ _ r hr hf
    · rw [hc, hc0]
      simp [hz]
      omega
    · rw [hres]
      exact hb.2

theorem translate_terminates_witness :
    ∃ (k : Nat) (r : TranslateResult Unit),
      (∀ fuel, k + 1 ≤ fuel →
        translate sampleEnv sampleConfig fuel 1 sampleUnits 12 initialGlobals = some r) ∧
      r.g.reslen = start_capacity initialGlobals * 2 ^ k ∧
      r.g.iconv_calls = initialGlobals.iconv_calls + (if 12 = 0 then 0 else k + 1) ∧
      k ≤ Nat.clog 2 ((max 3 (start_capacity initialGlobals) +
        start_capacity initialGlobals - 1) / start_capacity initialGlobals) ∧
      r.g.reslen < 2 * max 3 (start_capacity initialGlobals) :=
  translate_terminates sampleEnv sampleConfig 1 sampleUnits 12 initialGlobals 3
    (by rfl) (by decide) (by decide) (by decide) sampleUnits_no_overflow

/-- Termination does not depend on `errno`.  In a build without marker
recovery, for a non-null handle, any input, any value of `errno` on entry and
a starting capacity `c` of at least 1, if the codec reports no E2BIG whenever
at least `N` bytes are free, then `translate` returns, with the capacity
`c * 2 ^ k` for some `k`, which is less than `4 * max(N, c)`: a value E2BIG
left in `errno` costs at most one more doubling. -/
theorem translate_terminates_any_errno {W : Type} (E : Env W) (cfg : Config) (tr : iconv_t)
    (mes : List Byte) (inlen : Nat) (g : Globals W) (N : Nat)
    (hcfg : cfg.PACKAGE_DWLIB = false) (htr : tr ≠ 0) (hcap : 1 ≤ start_capacity g)
    (hN : ∀ (w : W) (n avail : Nat), N ≤ avail →
      (E.iconv w tr (mes.take n) avail).err ≠ some E2BIG) :
    ∃ (k : Nat) (r : TranslateResult W),
      (∀ fuel, k + 1 ≤ fuel → translate E cfg fuel tr mes inlen g = some r) ∧
      r.g.reslen = start_capacity g * 2 ^ k ∧
      r.g.reslen < 4 * max N (start_capacity g) := by
  obtain ⟨hr0, _, _, _, _⟩ := translate_entry_facts E g
  have hmax : start_capacity g ≤ max N (start_capacity g) := le_max_right _ _
  by_cases hz : inlen = 0
  · subst hz
    refine ⟨0, { ret := .res, outlen := (translate_entry E g).reslen -
        (translate_entry E g).reslen, overrun := false, g := translate_entry E g }, ?_, ?_, ?_⟩
    · intro fuel hf
      obtain ⟨f, rfl⟩ : ∃ f, fuel = f + 1 := ⟨fuel - 1, by omega⟩
      rw [translate_eq_loop E cfg _ tr mes 0 g htr, translate_loop_succ]
      simp [translate_step, entry_locals]
    · simp [hr0]
    · simp only [hr0]
      omega
  · have hm := not_marker_next E cfg tr mes (entry_locals inlen (translate_entry E g))
      (translate_entry E g) hcfg
    by_cases he : (after_pass E tr mes (entry_locals inlen (translate_entry E g))
        (translate_entry E g)).errno = E2BIG
    · have hs := translate_step_restart E cfg tr mes _ _ hz hm he
      have hn : N ≤ (translate_entry E g).reslen * 2 * 2 ^ N := by
        rw [hr0]
        calc N ≤ 2 ^ N := (Nat.lt_two_pow N).le
          _ ≤ start_capacity g * 2 * 2 ^ N := by
            have : 1 ≤ start_capacity g * 2 := by omega
            exact Nat.le_mul_of_pos_left _ (by omega)
      obtain ⟨k, r, _, hr, hres, _, hlast⟩ :=
        loop_terminates E cfg tr mes N hcfg hN N
          { len := strlen mes + 1, tmp := 0, tmp2 := 0,
            len2 := (translate_entry E g).reslen * 2 }
          { after_pass E tr mes (entry_locals inlen (translate_entry E g))
              (translate_entry E g) with
            errno := 0, res := some (E.DMALLOC ((translate_entry E g).reslen * 2)),
            reslen := (translate_entry E g).reslen * 2 }
          rfl rfl rfl (by simp) (show (0 : Nat) ≠ E2BIG by decide) hn
      have hres2 : r.g.reslen = start_capacity g * 2 * 2 ^ k := by rw [hres, ← hr0]
      have hlast2 : k = 0 ∨ start_capacity g * 2 * 2 ^ (k - 1) < N := by
        rcases hlast with h0 | h1
        · exact Or.inl h0
        · right
          rw [← hr0]
          exact h1
      have hb := restart_bounds N (start_capacity g * 2) k (by omega) hlast2
      refine ⟨k + 1, r, ?_, ?_, ?_⟩
      · intro fuel hf
        rw [translate_eq_loop E cfg _ tr mes inlen g htr]
        apply translate_loop_of_le E cfg tr mes (k + 1 + 1) fuel _ _ r _ hf
        rw [translate_loop_succ, hs]
        exact hr
      · rw [hres2, pow_succ]
        ring
      · rw [hres2]
        have h2 : max N (start_capacity g * 2) ≤ 2 * max N (start_capacity g) := by
          apply max_le
          · have : N ≤ max N (start_capacity g) := le_max_left _ _
            omega
          · omega
        have := hb.2
        omega
    · obtain ⟨r, hr, _, _, _, hres, _⟩ :=
        translate_step_done E cfg tr mes _ _ hz hm rfl rfl he
      refine ⟨0, r, ?_, ?_, ?_⟩
      · intro fuel hf
        obtain ⟨f, rfl⟩ : ∃ f, fuel = f + 1 := ⟨fuel - 1, by omega⟩
        rw [translate_eq_loop E cfg _ tr mes inlen g htr, translate_loop_succ, hr]
      · rw [hres, hr0]
        simp
      · rw [hres, hr0]
        omega

/-! ## Independence of the starting capacity -/

theorem iconv_same_result {W : Type} (E : Env W) (tr : iconv_t) (w : W) (inp : List Byte)
    (hmono : ∀ (inp : List Byte) (a b : Nat), a ≤ b →
      (E.iconv w tr inp a).err ≠ some E2BIG → E.iconv w tr inp b = E.iconv w tr inp a)
    (a b : Nat) (ha : (E.iconv w tr inp a).err ≠ some E2BIG)
    (hb : (E.iconv w tr inp b).err ≠ some E2BIG) :
    E.iconv w tr inp a = E.iconv w tr inp b := by
  rcases Nat.le_total a b with h | h
  · exact (hmono inp a b h ha).symm
  · exact hmono inp b a h hb

theorem iconv_pass_easy {W : Type} (E : Env W) (tr : iconv_t) (mes : List Byte) (l : Locals)
    (g : Globals W) (h1 : l.tmp = 0) (h3 : l.len2 = g.reslen) (hl : l.len = strlen mes + 1) :
    iconv_pass E tr mes l g = E.iconv g.world tr (easy_input mes) g.reslen := by
  simp only [iconv_pass, easy_input, h1, h3, hl, List.drop_zero]

theorem easy_loop_fresh {W : Type} (E : Env W) (cfg : Config) (tr : iconv_t)
    (mes : List Byte) (w : W) (R : Nat)
    (hnm : ∀ (l : Locals) (c : Nat), l.tmp = 0 → l.len = strlen mes + 1 →
      ¬ marker_next cfg mes l c)
    (hst : ∀ (inp : List Byte) (a : Nat), (E.iconv w tr inp a).world = w)
    (hmono : ∀ (inp : List Byte) (a b : Nat), a ≤ b →
      (E.iconv w tr inp a).err ≠ some E2BIG → E.iconv w tr inp b = E.iconv w tr inp a)
    (hbig : (E.iconv w tr (easy_input mes) R).err ≠ some E2BIG)
    (n : Nat) (l : Locals) (g : Globals W)
    (h1 : l.tmp = 0) (h2 : l.tmp2 = 0) (h3 : l.len2 = g.reslen)
    (hl : l.len = strlen mes + 1) (hw : g.world = w) (herrno : g.errno ≠ E2BIG)
    (hn : R ≤ g.reslen * 2 ^ n) :
    ∃ fuel r, translate_loop E cfg tr mes fuel l g = some r ∧ r.ret = .res ∧
      r.outlen = (E.iconv w tr (easy_input mes) R).produced.length ∧
      (r.deref mes).take r.outlen = (E.iconv w tr (easy_input mes) R).produced := by
  induction n generalizing l g with
  | zero =>
    have hm := hnm l (iconv_pass E tr mes l g).consumed h1 hl
    have hlen : l.len ≠ 0 := by omega
    have hpe := iconv_pass_easy E tr mes l g h1 h3 hl
    rw [hw] at hpe
    have hsame : E.iconv w tr (easy_input mes) g.reslen = E.iconv w tr (easy_input mes) R :=
      hmono (easy_input mes) R g.reslen (by simpa using hn) hbig
    have he : (after_pass E tr mes l g).errno ≠ E2BIG := by
      intro h
      have := (errno_e2big_iff E tr mes l g herrno).1 h
      rw [hpe, hsame] at this
      exact hbig this
    obtain ⟨r, hr, hret, _, _, _, _, ho, hb⟩ :=
      translate_step_done E cfg tr mes l g hlen hm h2 h3 he
    rw [hpe, hsame] at ho hb
    exact ⟨1, r, by rw [translate_loop_succ, hr], hret, ho, hb⟩
  | succ n ih =>
    have hm := hnm l (iconv_pass E tr mes l g).consumed h1 hl
    have hlen : l.len ≠ 0 := by omega
    have hpe := iconv_pass_easy E tr mes l g h1 h3 hl
    rw [hw] at hpe
    by_cases he : (after_pass E tr mes l g).errno = E2BIG
    · have hs := translate_step_restart E cfg tr mes l g hlen hm he
      obtain ⟨fuel, r, hr, hrest⟩ :=
        ih { len := strlen mes + 1, tmp := 0, tmp2 := 0, len2 := g.reslen * 2 }
          { after_pass E tr mes l g with
            errno := 0, res := some (E.DMALLOC (g.reslen * 2)), reslen := g.reslen * 2 }
          rfl rfl rfl rfl
          (by
            show (iconv_pass E tr mes l g).world = w
            rw [hpe]
            exact hst _ _)
          (show (0 : Nat) ≠ E2BIG by decide)
          (by
            show R ≤ g.reslen * 2 * 2 ^ n
            rw [pow_succ] at hn
            calc R ≤ g.reslen * (2 ^ n * 2) := hn
              _ = g.reslen * 2 * 2 ^ n := by ring)
      exact ⟨fuel + 1, r, by rw [translate_loop_succ, hs]; exact hr, hrest⟩
    · have hp : (E.iconv w tr (easy_input mes) g.reslen).err ≠ some E2BIG := by
        intro h
        apply he
        rw [errno_e2big_iff E tr mes l g herrno, hpe]
        exact h
      have hsame := iconv_same_result E tr w (easy_input mes) hmono g.reslen R hp hbig
      obtain ⟨r, hr, hret, _, _, _, _, ho, hb⟩ :=
        translate_step_done E cfg tr mes l g hlen hm h2 h3 he
      rw [hpe, hsame] at ho hb
      exact ⟨1, r, by rw [translate_loop_succ, hr], hret, ho, hb⟩

theorem easy_loop_any_errno {W : Type} (E : Env W) (cfg : Config) (tr : iconv_t)
    (mes : List Byte) (w : W) (R : Nat)
    (hnm : ∀ (l : Locals) (c : Nat), l.tmp = 0 → l.len = strlen mes + 1 →
      ¬ marker_next cfg mes l c)
    (hst : ∀ (inp : List Byte) (a : Nat), (E.iconv w tr inp a).world = w)
    (hmono : ∀ (inp : List Byte) (a b : Nat), a ≤ b →
      (E.iconv w tr inp a).err ≠ some E2BIG → E.iconv w tr inp b = E.iconv w tr inp a)
    (hbig : (E.iconv w tr (easy_input mes) R).err ≠ some E2BIG)
    (n : Nat) (l : Locals) (g : Globals W)
    (h1 : l.tmp = 0) (h2 : l.tmp2 = 0) (h3 : l.len2 = g.reslen)
    (hl : l.len = strlen mes + 1) (hw : g.world = w)
    (hn : R ≤ g.reslen * 2 * 2 ^ n) :
    ∃ fuel r, translate_loop E cfg tr mes fuel l g = some r ∧ r.ret = .res ∧
      r.outlen = (E.iconv w tr (easy_input mes) R).produced.length ∧
      (r.deref mes).take r.outlen = (E.iconv w tr (easy_input mes) R).produced := by
  have hm := hnm l (iconv_pass E tr mes l g).consumed h1 hl
  have hlen : l.len ≠ 0 := by omega
  have hpe := iconv_pass_easy E tr mes l g h1 h3 hl
  rw [hw] at hpe
  by_cases he : (after_pass E tr mes l g).errno = E2BIG
  · have hs := translate_step_restart E cfg tr mes l g hlen hm he
    obtain ⟨fuel, r, hr, hrest⟩ :=
      easy_loop_fresh E cfg tr mes w R hnm hst hmono hbig n
        { len := strlen mes + 1, tmp := 0, tmp2 := 0, len2 := g.reslen * 2 }
        { after_pass E tr mes l g with
          errno := 0, res := some (E.DMALLOC (g.reslen * 2)), reslen := g.reslen * 2 }
        rfl rfl rfl rfl
        (by
          show (iconv_pass E tr mes l g).world = w
          rw [hpe]
          exact hst _ _)
        (show (0 : Nat) ≠ E2BIG by decide) hn
    exact ⟨fuel + 1, r, by rw [translate_loop_succ, hs]; exact hr, hrest⟩
  · have hp : (E.iconv w tr (easy_input mes) g.reslen).err ≠ some E2BIG := by
      intro h
      apply he
      rw [after_pass_errno, hpe, h]
      rfl
    have hsame := iconv_same_result E tr w (easy_input mes) hmono g.reslen R hp hbig
    obtain ⟨r, hr, hret, _, _, _, _, ho, hb⟩ :=
      translate_step_done E cfg tr mes l g hlen hm h2 h3 he
    rw [hpe, hsame] at ho hb
    exact ⟨1, r, by rw [translate_loop_succ, hr], hret, ho, hb⟩

theorem latin_conv_mono (inp : List Byte) (a b : Nat) (hab : a ≤ b)
    (h : (latin_conv inp a).2.2 ≠ some E2BIG) : latin_conv inp b = latin_conv inp a := by
  induction inp generalizing a b with
  | nil => simp [latin_conv]
  | cons x rest ih =>
    by_cases hx : x = 0x81
    · simp [latin_conv, hx]
    · cases a with
      | zero => simp [latin_conv, hx] at h
      | succ a =>
        obtain ⟨b, rfl⟩ : ∃ c, b = c + 1 := ⟨b - 1, by omega⟩
        simp only [latin_conv, hx, if_false] at h ⊢
        rw [ih a b (by omega) h]

theorem latinEnv_mono (w : Unit) (tr : iconv_t) (inp : List Byte) (a b : Nat) (hab : a ≤ b)
    (h : (latinEnv.iconv w tr inp a).err ≠ some E2BIG) :
    latinEnv.iconv w tr inp b = latinEnv.iconv w tr inp a := by
  show ({ consumed := (latin_conv inp b).1, produced := (latin_conv inp b).2.1,
          err := (latin_conv inp b).2.2, world := w } : IconvOut Unit) =
    { consumed := (latin_conv inp a).1, produced := (latin_conv inp a).2.1,
      err := (latin_conv inp a).2.2, world := w }
  rw [latin_conv_mono inp a b hab h]

/-- C17, as stated, fails in the build with marker recovery for a text
that holds the byte 0xff followed by 0xf9.  The single-byte codec is
stateless, and once a call does not report E2BIG more room changes nothing.
The build has marker recovery and the text "A" 0xff 0xf9 0x81 holds the two
marker bytes at offsets 1 and 2.  For this text a buffer of 16 bytes
gives the 3 bytes "A" 0xff 0xf9 (the call stops at the invalid byte, without
overflow).  On the first call, where the buffer has 1 byte, the codec
reports E2BIG in front of 0xff 0xf9, these two bytes are skipped, the next
call stops at the invalid byte, and the result is the one byte "A". -/
theorem marker_breaks_capacity_independence :
    (∀ (inp : List Byte) (a : Nat), (latinEnv.iconv () 1 inp a).world = ()) ∧
      (∀ (inp : List Byte) (a b : Nat), a ≤ b →
        (latinEnv.iconv () 1 inp a).err ≠ some E2BIG →
          latinEnv.iconv () 1 inp b = latinEnv.iconv () 1 inp a) ∧
      dwlibConfig.PACKAGE_DWLIB = true ∧
      (sampleInvalid.getD 1 0 = 0xff ∧ sampleInvalid.getD 2 0 = 0xf9) ∧
      easy_input sampleInvalid = sampleInvalid ∧
      (latinEnv.iconv () 1 (easy_input sampleInvalid) 16).err = some EILSEQ ∧
      (translate latinEnv dwlibConfig 3 1 sampleInvalid (strlen sampleInvalid + 1)
        sampleRoomy).map (fun r => (r.outlen, (r.deref sampleInvalid).take r.outlen)) =
        some (3, [0x41, 0xff, 0xf9]) ∧
      (translate latinEnv dwlibConfig 3 1 sampleInvalid (strlen sampleInvalid + 1)
        initialGlobals).map (fun r => (r.outlen, (r.deref sampleInvalid).take r.outlen)) =
        some (1, [0x41]) ∧
      (translate_easy latinEnv dwlibConfig 3 1 sampleInvalid sampleRoomy).map
        (fun r => (r.1.bytes sampleInvalid r.2).take 3) = some [0x41, 0xff, 0xf9] ∧
      (translate_easy latinEnv dwlibConfig 3 1 sampleInvalid initialGlobals).map
        (fun r => r.1.bytes sampleInvalid r.2) = some [0x41] := by
  refine ⟨fun _ _ => rfl, latinEnv_mono () 1, rfl, by decide, by decide, by decide, by decide,
    by decide, by decide, by decide⟩

/-- C17, amended: let the codec of a non-null handle be stateless (a call
leaves the state of the library as it was) and deterministic in that, once a
call does not report E2BIG, the same input with more room gives the same
result.  Take any text that, when the build has marker recovery, holds no
byte 0xff followed by 0xf9; any state `g1` whose starting capacity is at
least 1; and any state `g2` with the same library state whose starting
capacity is large enough for the first pass not to report E2BIG.  Then
`translate_easy` returns from both states, and the two buffers it returns
start with the same bytes: the bytes the codec produces for the text and its
terminator. -/
theorem translate_easy_capacity_independent {W : Type} (E : Env W) (cfg : Config)
    (tr : iconv_t) (mes : List Byte) (g1 g2 : Globals W) (htr : tr ≠ 0)
    (hmark : cfg.PACKAGE_DWLIB = false ∨
      ∀ i, i + 2 ≤ strlen mes + 1 → ¬ (mes.getD i 0 = 0xff ∧ mes.getD (i + 1) 0 = 0xf9))
    (hst : ∀ (inp : List Byte) (a : Nat), (E.iconv g2.world tr inp a).world = g2.world)
    (hmono : ∀ (inp : List Byte) (a b : Nat), a ≤ b →
      (E.iconv g2.world tr inp a).err ≠ some E2BIG →
        E.iconv g2.world tr inp b = E.iconv g2.world tr inp a)
    (hw : g1.world = g2.world) (hcap : 1 ≤ start_capacity g1)
    (hbig : (E.iconv g2.world tr (easy_input mes) (start_capacity g2)).err ≠ some E2BIG) :
    ∃ (f1 f2 : Nat) (p1 p2 : char_ptr) (s1 s2 : Globals W),
      translate_easy E cfg f1 tr mes g1 = some (p1, s1) ∧
      translate_easy E cfg f2 tr mes g2 = some (p2, s2) ∧
      (p1.bytes mes s1).take
          (E.iconv g2.world tr (easy_input mes) (start_capacity g2)).produced.length =
        (E.iconv g2.world tr (easy_input mes) (start_capacity g2)).produced ∧
      (p2.bytes mes s2).take
          (E.iconv g2.world tr (easy_input mes) (start_capacity g2)).produced.length =
        (E.iconv g2.world tr (easy_input mes) (start_capacity g2)).produced := by
  have hnm : ∀ (l : Locals) (c : Nat), l.tmp = 0 → l.len = strlen mes + 1 →
      ¬ marker_next cfg mes l c := by
    intro l c h1 hl hm
    rcases hmark with hcfg | hpair
    · rw [hm.1] at hcfg
      exact Bool.noConfusion hcfg
    · apply hpair c
      · have := hm.2.1
        omega
      · have h2 := hm.2.2
        rw [h1, Nat.zero_add] at h2
        exact h2
  have key : ∀ (g : Globals W) (n : Nat), g.world = g2.world →
      start_capacity g2 ≤ start_capacity g * 2 * 2 ^ n →
      ∃ (f : Nat) (p : char_ptr) (s : Globals W),
        translate_easy E cfg f tr mes g = some (p, s) ∧
        (p.bytes mes s).take
            (E.iconv g2.world tr (easy_input mes) (start_capacity g2)).produced.length =
          (E.iconv g2.world tr (easy_input mes) (start_capacity g2)).produced := by
    intro g n hgw hn
    obtain ⟨hr0, _, _, hw0, _⟩ := translate_entry_facts E g
    obtain ⟨fuel, r, hr, _, ho, hb⟩ :=
      easy_loop_any_errno E cfg tr mes g2.world (start_capacity g2) hnm hst hmono hbig n
        (entry_locals (strlen mes + 1) (translate_entry E g)) (translate_entry E g)
        rfl rfl rfl rfl (by rw [hw0, hgw]) (by rw [hr0]; exact hn)
    refine ⟨fuel, r.ret, r.g, ?_, ?_⟩
    · simp only [translate_easy, htr, if_false,
        translate_eq_loop E cfg fuel tr mes (strlen mes + 1) g htr, hr]
    · rw [← ho]
      exact hb
  obtain ⟨f1, p1, s1, h1, h1b⟩ := key g1 (start_capacity g2) hw (by
    calc start_capacity g2 ≤ 2 ^ start_capacity g2 := (Nat.lt_two_pow _).le
      _ ≤ start_capacity g1 * 2 * 2 ^ start_capacity g2 := by
        have : 1 ≤ start_capacity g1 * 2 := by omega
        exact Nat.le_mul_of_pos_left _ (by omega))
  obtain ⟨f2, p2, s2, h2, h2b⟩ := key g2 0 rfl (by omega)
  exact ⟨f1, f2, p1, p2, s1, s2, h1, h2, h1b, h2b⟩

theorem translate_easy_capacity_independent_witness :
    ∃ (f1 f2 : Nat) (p1 p2 : char_ptr) (s1 s2 : Globals Unit),
      translate_easy latinEnv dwlibConfig f1 1 (string_ptr sampleText) initialGlobals =
        some (p1, s1) ∧
      translate_easy latinEnv dwlibConfig f2 1 (string_ptr sampleText) sampleRoomy =
        some (p2, s2) ∧
      (p1.bytes (string_ptr sampleText) s1).take
          (latinEnv.iconv sampleRoomy.world 1 (easy_input (string_ptr sampleText))
            (start_capacity sampleRoomy)).produced.length =
        (latinEnv.iconv sampleRoomy.world 1 (easy_input (string_ptr sampleText))
          (start_capacity sampleRoomy)).produced ∧
      (p2.bytes (string_ptr sampleText) s2).take
          (latinEnv.iconv sampleRoomy.world 1 (easy_input (string_ptr sampleText))
            (start_capacity sampleRoomy)).produced.length =
        (latinEnv.iconv sampleRoomy.world 1 (easy_input (string_ptr sampleText))
          (start_capacity sampleRoomy)).produced :=
  translate_easy_capacity_independent latinEnv dwlibConfig 1 (string_ptr sampleText)
    initialGlobals sampleRoomy (by decide)
    (Or.inr (by
      intro i hi
      have h3 : i + 2 ≤ 3 := hi
      have h4 : i < 2 := by omega
      interval_cases i <;> decide))
    (fun _ _ => rfl) (latinEnv_mono sampleRoomy.world 1) (by rfl) (by decide) (by decide)

end Fliconv
